import Mathlib

/-!
# Verification of the GOLF toolchain (assembler + virtual machine)

Shallow embedding of `golf.py` (the virtual machine) and `assemble.py`
(the assembler's encoder, data pooler and size calculator) from the
`orlp/golf-cpu` repository.  Machine integers are modelled as `Nat`/`Int`
with explicit reductions modulo `2 ^ 64` exactly where the Python source
reduces; fallible operations return `Option`.

The instruction table module `idata.py` (mnemonic ids, signatures, cycle
costs) is not part of the sources; those tables are modelled from the
spec, as noted on each definition.  The cycle-cost table is kept abstract:
the VM is parametric in a cost function.
-/

namespace Golf

/-- `GolfCPU.twos`: interpret `x` as an `n`-bit two's complement integer.
Python: `if x & (1 << (n - 1)): x = x - (1 << n)`; testing the bit
`n - 1` of an arbitrary integer is `floor(x / 2^(n-1)) mod 2 = 1`. -/
def twos (x : Int) (n : Nat := 64) : Int :=
  if (x.fdiv (2 ^ (n - 1))).fmod 2 = 1 then x - 2 ^ n else x

/-- `GolfCPU.u`: unsigned wrapping, any integer reduced to `[0, 2^64)`.
Python: `x & ((1 << 64) - 1)`. -/
def u (x : Int) : Nat :=
  (x.emod (2 ^ 64)).toNat

/-- `GolfCPU.shl`: Python `a << b` / `a >> -b` after `b = twos(b)`;
`>>` on Python ints is a floor shift, i.e. floor division. -/
def shl (a : Int) (b : Nat) : Int :=
  let bs := twos b
  if bs < 0 then a.fdiv (2 ^ (-bs).toNat) else a * 2 ^ bs.toNat

/-- `GolfCPU.shr` — `self.shl(a, self.u(-self.twos(b)))`. -/
def shr (a : Int) (b : Nat) : Int :=
  shl a (u (-(twos b)))

/-- `GolfCPU.sar` — `self.u(self.shr(self.twos(a), b))`. -/
def sar (a b : Nat) : Nat :=
  u (shr (twos a) b)

/-- `GolfCPU.mulu`: 128-bit product, low and high 64-bit halves.
Python: `r = (a * b) & ((1 << 128) - 1); return self.u(r), r >> 64`. -/
def mulu (a b : Int) : Nat × Nat :=
  let r := (a * b).emod (2 ^ 128)
  (u r, (r.fdiv (2 ^ 64)).toNat)

/-- `GolfCPU.mul` — `self.mulu(self.twos(a), self.twos(b))`. -/
def mul (a b : Nat) : Nat × Nat :=
  mulu (twos a) (twos b)

/-- `GolfCPU.div`: signed floor division and remainder (Python `//`, `%`);
`none` models the `ZeroDivisionError` when the signed divisor is zero. -/
def div (a b : Nat) : Option (Nat × Nat) :=
  let ai := twos a
  let bi := twos b
  if bi = 0 then none else some (u (ai.fdiv bi), u (ai.fmod bi))

/-- `GolfCPU.divu`: unsigned division and remainder. -/
def divu (a b : Nat) : Option (Nat × Nat) :=
  if b = 0 then none else some (a / b, a % b)

/-- Value of a little-endian byte list (`struct.unpack` of unsigned
fields); each entry is reduced to a byte. -/
def leVal : List Nat → Nat
  | [] => 0
  | b :: bs => b % 256 + 256 * leVal bs

/-- Little-endian byte list of `n`, `w` bytes long (`struct.pack` of an
already-masked value). -/
def packLE : Nat → Nat → List Nat
  | _, 0 => []
  | n, w + 1 => n % 256 :: packLE (n / 256) w

/-- Python slice `l[a : a + w]` (possibly shorter than `w` at the end). -/
def slice (l : List Nat) (a w : Nat) : List Nat :=
  (l.drop a).take w

/-- Python slice assignment `l[a : a + len bs] = bs` after first growing
`l` with zeros so that the target range exists (`golf.py` store). -/
def writeBytes (l : List Nat) (a : Nat) (bs : List Nat) : List Nat :=
  let l2 := if l.length < a + bs.length then
    l ++ List.replicate (a + bs.length - l.length) 0 else l
  l2.take a ++ bs ++ l2.drop (a + bs.length)

/-- The GOLF instruction mnemonics, in the order of the dispatch chain of
`GolfCPU.execute_instr` plus the specially handled `ret` and `halt`. -/
inductive Mnemonic where
  | not | or | xor | and | shl | shr | sar | add | sub
  | cmp | neq | le | leq | leu | lequ
  | mul | mulu | div | divu
  | lb | lbu | ls | lsu | li | liu | lw
  | sb | ss | si | sw
  | rand | jz | jnz | call | ret | halt
  deriving DecidableEq

/-- Modelled from the spec: `idata.instr_ids` maps each mnemonic to a
stable 7-bit id (§6.4).  `idata.py` is not among the sources and the spec
leaves the numeric contents of the table out of scope, so an arbitrary
injective numbering below 128 is fixed here. -/
def instrId : Mnemonic → Nat
  | .not => 0 | .or => 1 | .xor => 2 | .and => 3 | .shl => 4 | .shr => 5
  | .sar => 6 | .add => 7 | .sub => 8 | .cmp => 9 | .neq => 10 | .le => 11
  | .leq => 12 | .leu => 13 | .lequ => 14 | .mul => 15 | .mulu => 16
  | .div => 17 | .divu => 18 | .lb => 19 | .lbu => 20 | .ls => 21
  | .lsu => 22 | .li => 23 | .liu => 24 | .lw => 25 | .sb => 26 | .ss => 27
  | .si => 28 | .sw => 29 | .rand => 30 | .jz => 31 | .jnz => 32
  | .call => 33 | .ret => 34 | .halt => 35

/-- Modelled from the spec: `idata.instr_names`, the inverse table used by
the decoder (`golf.py` line 164); inverse of `instrId` by construction. -/
def instrName : Nat → Option Mnemonic
  | 0 => some .not | 1 => some .or | 2 => some .xor | 3 => some .and
  | 4 => some .shl | 5 => some .shr | 6 => some .sar | 7 => some .add
  | 8 => some .sub | 9 => some .cmp | 10 => some .neq | 11 => some .le
  | 12 => some .leq | 13 => some .leu | 14 => some .lequ | 15 => some .mul
  | 16 => some .mulu | 17 => some .div | 18 => some .divu | 19 => some .lb
  | 20 => some .lbu | 21 => some .ls | 22 => some .lsu | 23 => some .li
  | 24 => some .liu | 25 => some .lw | 26 => some .sb | 27 => some .ss
  | 28 => some .si | 29 => some .sw | 30 => some .rand | 31 => some .jz
  | 32 => some .jnz | 33 => some .call | 34 => some .ret | 35 => some .halt
  | _ => none

/-- Modelled from the spec: the first component of
`idata.instr_signatures` — the number of output registers of each real
mnemonic (§3, §4.3, §4.7): the first `k_out` operands are written, the
rest are read.  `ret` and `halt` are not in the table; they are dispatched
before the signature is consulted, so their value here is irrelevant. -/
def sigOut : Mnemonic → Nat
  | .mul | .mulu | .div | .divu => 2
  | .sb | .ss | .si | .sw | .jz | .jnz | .call | .ret | .halt => 0
  | _ => 1

/-- A decoded operand: registers are left symbolic until dispatch,
immediates are 64-bit values. -/
inductive Arg where
  | reg (r : Fin 26)
  | val (v : Nat)
  deriving DecidableEq

/-- The VM state (`GolfCPU.__init__`).  `stdin` is the sequence of byte
values still to be read; `stdout` the bytes written so far.  The
nondeterministic `rand` instruction is modelled by the oracle stream
`rand_src` and the counter `rand_used`. -/
structure State where
  data : List Nat
  instructions : List Nat
  isp : Nat
  regs : Fin 26 → Nat
  callstack : List (Nat × (Fin 26 → Nat))
  stack : List Nat
  heap : List Nat
  cycle_count : Nat
  stdin : List Nat
  stdout : List Nat
  rand_src : Nat → Nat
  rand_used : Nat

instance : Inhabited State :=
  ⟨⟨[], [], 0, fun _ => 0, [], [], [], 0, [], [], fun _ => 0, 0⟩⟩

/-- The stdio sentinel address `0xFFFF_FFFF_FFFF_FFFF`. -/
def stdioAddr : Nat := 2 ^ 64 - 1

/-- Base of the read-only data segment, `0x2000_0000_0000_0000`. -/
def dataBase : Nat := 2 ^ 61

/-- Base of the stack segment, `0x1000_0000_0000_0000`. -/
def stackBase : Nat := 2 ^ 60

/-- `GolfCPU.load`.  At the sentinel, only width 8 is allowed; one byte is
taken from stdin and, per `return r or self.u(-1)`, a zero byte is turned
into `2^64 - 1`; at EOF `ord(sys.stdin.read(1))` raises, modelled `none`.
Segment loads slice the segment (short slices make `struct.unpack`
raise).  The source packs 2-byte values with the nonstandard format
letter `S`; per spec §9 it is modelled as a standard little-endian 2-byte
unsigned field. -/
def load (s : State) (a w : Nat) : Option (Nat × State) :=
  if a = stdioAddr then
    if w ≠ 8 then none
    else match s.stdin with
      | [] => none
      | b :: rest => some (if b ≠ 0 then b else u (-1), { s with stdin := rest })
  else
    let r := if dataBase ≤ a then slice s.data (a - dataBase) w
      else if stackBase ≤ a then slice s.stack (a - stackBase) w
      else slice s.heap a w
    if w = 1 ∨ w = 2 ∨ w = 4 ∨ w = 8 then
      if r.length = w then some (leVal r, s) else none
    else none

/-- `GolfCPU.store`.  Width 8 at the sentinel writes the low byte to
stdout; stores into the data segment fail; heap and stack are grown with
zeros up to the end of the written range before the bytes are spliced
in. -/
def store (s : State) (a b w : Nat) : Option State :=
  if a = stdioAddr then
    if w ≠ 8 then none
    else some { s with stdout := s.stdout ++ [b % 256] }
  else if w = 1 ∨ w = 2 ∨ w = 4 ∨ w = 8 then
    let bs := packLE (b % 2 ^ (8 * w)) w
    if dataBase ≤ a then none
    else if stackBase ≤ a then
      some { s with stack := writeBytes s.stack (a - stackBase) bs }
    else some { s with heap := writeBytes s.heap a bs }
  else none

/-- The register-lookup loop at the top of `GolfCPU.execute_instr`:
operands from position `instr_signatures[instr][0]` on are replaced by the
current value of the named register. -/
def resolveArgsGo (k : Nat) (regs : Fin 26 → Nat) : Nat → List Arg → List Arg
  | _, [] => []
  | i, a :: t =>
    (if k ≤ i then match a with
      | .reg r => .val (regs r)
      | v => v
    else a) :: resolveArgsGo k regs (i + 1) t

/-- See `resolveArgsGo`; positions are counted from 0. -/
def resolveArgs (k : Nat) (regs : Fin 26 → Nat) (args : List Arg) : List Arg :=
  resolveArgsGo k regs 0 args

/-- Operand at position `i` expected to name an output register;
anything else makes the Python `self.regs[args[i]] = …` raise. -/
def outReg (args : List Arg) (i : Nat) : Option (Fin 26) :=
  match args.getD i (.val 0) with
  | .reg r => some r
  | .val _ => none

/-- Operand at position `i` read as a value (input positions hold values
after `resolveArgs`). -/
def inVal (args : List Arg) (i : Nat) : Option Nat :=
  match args.getD i (.val 0) with
  | .val v => some v
  | .reg _ => none

/-- Write one register. -/
def setReg (s : State) (d : Fin 26) (v : Nat) : State :=
  { s with regs := Function.update s.regs d v }

/-- Result of one iteration of `GolfCPU.run`'s loop: a runtime error, a
`halt` (value of decoded operand slot 0), or the next state. -/
inductive StepRes where
  | err
  | halted (v : Arg) (s : State)
  | next (s : State)

/-- The dispatch chain of `GolfCPU.execute_instr` for every mnemonic
other than `ret` (handled in `step`, before this point) and `halt`
(intercepted by `run`), after operand resolution: the state effect of one
instruction, `none` on a runtime error (an unresolvable operand, a bad
memory access, or division by zero). -/
def instrAction (m : Mnemonic) (args : List Arg) (s : State) : Option State :=
  match m with
  | .not =>
    match outReg args 0 with
    | none => none
    | some d =>
      match inVal args 1 with
      | none => none
      | some x => some (setReg s d (if x = 0 then 1 else 0))
  | .or =>
    match outReg args 0 with
    | none => none
    | some d =>
      match inVal args 1 with
      | none => none
      | some x =>
        match inVal args 2 with
        | none => none
        | some y => some (setReg s d (x ||| y))
  | .xor =>
    match outReg args 0 with
    | none => none
    | some d =>
      match inVal args 1 with
      | none => none
      | some x =>
        match inVal args 2 with
        | none => none
        | some y => some (setReg s d (x ^^^ y))
  | .and =>
    match outReg args 0 with
    | none => none
    | some d =>
      match inVal args 1 with
      | none => none
      | some x =>
        match inVal args 2 with
        | none => none
        | some y => some (setReg s d (x &&& y))
  | .shl =>
    match outReg args 0 with
    | none => none
    | some d =>
      match inVal args 1 with
      | none => none
      | some x =>
        match inVal args 2 with
        | none => none
        | some y => some (setReg s d ((Golf.shl x y).toNat))
  | .shr =>
    match outReg args 0 with
    | none => none
    | some d =>
      match inVal args 1 with
      | none => none
      | some x =>
        match inVal args 2 with
        | none => none
        | some y => some (setReg s d ((Golf.shr x y).toNat))
  | .sar =>
    match outReg args 0 with
    | none => none
    | some d =>
      match inVal args 1 with
      | none => none
      | some x =>
        match inVal args 2 with
        | none => none
        | some y => some (setReg s d (sar x y))
  | .add =>
    match outReg args 0 with
    | none => none
    | some d =>
      match inVal args 1 with
      | none => none
      | some x =>
        match inVal args 2 with
        | none => none
        | some y => some (setReg s d ((x + y) % 2 ^ 64))
  | .sub =>
    match outReg args 0 with
    | none => none
    | some d =>
      match inVal args 1 with
      | none => none
      | some x =>
        match inVal args 2 with
        | none => none
        | some y => some (setReg s d (u ((x : Int) - (y : Int))))
  | .cmp =>
    match outReg args 0 with
    | none => none
    | some d =>
      match inVal args 1 with
      | none => none
      | some x =>
        match inVal args 2 with
        | none => none
        | some y => some (setReg s d (if x = y then 1 else 0))
  | .neq =>
    match outReg args 0 with
    | none => none
    | some d =>
      match inVal args 1 with
      | none => none
      | some x =>
        match inVal args 2 with
        | none => none
        | some y => some (setReg s d (if x ≠ y then 1 else 0))
  | .le =>
    match outReg args 0 with
    | none => none
    | some d =>
      match inVal args 1 with
      | none => none
      | some x =>
        match inVal args 2 with
        | none => none
        | some y => some (setReg s d (if twos x < twos y then 1 else 0))
  | .leq =>
    match outReg args 0 with
    | none => none
    | some d =>
      match inVal args 1 with
      | none => none
      | some x =>
        match inVal args 2 with
        | none => none
        | some y => some (setReg s d (if twos x ≤ twos y then 1 else 0))
  | .leu =>
    match outReg args 0 with
    | none => none
    | some d =>
      match inVal args 1 with
      | none => none
      | some x =>
        match inVal args 2 with
        | none => none
        | some y => some (setReg s d (if x < y then 1 else 0))
  | .lequ =>
    match outReg args 0 with
    | none => none
    | some d =>
      match inVal args 1 with
      | none => none
      | some x =>
        match inVal args 2 with
        | none => none
        | some y => some (setReg s d (if x ≤ y then 1 else 0))
  | .mul =>
    match outReg args 0 with
    | none => none
    | some d1 =>
      match outReg args 1 with
      | none => none
      | some d2 =>
        match inVal args 2 with
        | none => none
        | some x =>
          match inVal args 3 with
          | none => none
          | some y =>
            let p := Golf.mul x y
            some (setReg (setReg s d1 p.1) d2 p.2)
  | .mulu =>
    match outReg args 0 with
    | none => none
    | some d1 =>
      match outReg args 1 with
      | none => none
      | some d2 =>
        match inVal args 2 with
        | none => none
        | some x =>
          match inVal args 3 with
          | none => none
          | some y =>
            let p := Golf.mulu x y
            some (setReg (setReg s d1 p.1) d2 p.2)
  | .div =>
    match outReg args 0 with
    | none => none
    | some d1 =>
      match outReg args 1 with
      | none => none
      | some d2 =>
        match inVal args 2 with
        | none => none
        | some x =>
          match inVal args 3 with
          | none => none
          | some y =>
            match Golf.div x y with
            | none => none
            | some p => some (setReg (setReg s d1 p.1) d2 p.2)
  | .divu =>
    match outReg args 0 with
    | none => none
    | some d1 =>
      match outReg args 1 with
      | none => none
      | some d2 =>
        match inVal args 2 with
        | none => none
        | some x =>
          match inVal args 3 with
          | none => none
          | some y =>
            match Golf.divu x y with
            | none => none
            | some p => some (setReg (setReg s d1 p.1) d2 p.2)
  | .lb =>
    match outReg args 0 with
    | none => none
    | some d =>
      match inVal args 1 with
      | none => none
      | some x =>
        match load s x 1 with
        | none => none
        | some r => some (setReg r.2 d (u (twos r.1 8)))
  | .lbu =>
    match outReg args 0 with
    | none => none
    | some d =>
      match inVal args 1 with
      | none => none
      | some x =>
        match load s x 1 with
        | none => none
        | some r => some (setReg r.2 d (r.1))
  | .ls =>
    match outReg args 0 with
    | none => none
    | some d =>
      match inVal args 1 with
      | none => none
      | some x =>
        match load s x 2 with
        | none => none
        | some r => some (setReg r.2 d (u (twos r.1 16)))
  | .lsu =>
    match outReg args 0 with
    | none => none
    | some d =>
      match inVal args 1 with
      | none => none
      | some x =>
        match load s x 2 with
        | none => none
        | some r => some (setReg r.2 d (r.1))
  | .li =>
    match outReg args 0 with
    | none => none
    | some d =>
      match inVal args 1 with
      | none => none
      | some x =>
        match load s x 4 with
        | none => none
        | some r => some (setReg r.2 d (u (twos r.1 32)))
  | .liu =>
    match outReg args 0 with
    | none => none
    | some d =>
      match inVal args 1 with
      | none => none
      | some x =>
        match load s x 4 with
        | none => none
        | some r => some (setReg r.2 d (r.1))
  | .lw =>
    match outReg args 0 with
    | none => none
    | some d =>
      match inVal args 1 with
      | none => none
      | some x =>
        match load s x 8 with
        | none => none
        | some r => some (setReg r.2 d (r.1))
  | .sb =>
    match inVal args 0 with
    | none => none
    | some a =>
      match inVal args 1 with
      | none => none
      | some b => store s a b 1
  | .ss =>
    match inVal args 0 with
    | none => none
    | some a =>
      match inVal args 1 with
      | none => none
      | some b => store s a b 2
  | .si =>
    match inVal args 0 with
    | none => none
    | some a =>
      match inVal args 1 with
      | none => none
      | some b => store s a b 4
  | .sw =>
    match inVal args 0 with
    | none => none
    | some a =>
      match inVal args 1 with
      | none => none
      | some b => store s a b 8
  | .rand =>
    match outReg args 0 with
    | none => none
    | some d =>
      some { setReg s d (s.rand_src s.rand_used % 2 ^ 64) with rand_used := s.rand_used + 1 }
  | .jz =>
    match inVal args 0 with
    | none => none
    | some t =>
      match inVal args 1 with
      | none => none
      | some c => some { s with isp := if c = 0 then t else s.isp }
  | .jnz =>
    match inVal args 0 with
    | none => none
    | some t =>
      match inVal args 1 with
      | none => none
      | some c => some { s with isp := if c ≠ 0 then t else s.isp }
  | .call =>
    match inVal args 0 with
    | none => none
    | some t => some { s with callstack := (s.isp, s.regs) :: s.callstack, isp := t }
  | .ret => none
  | .halt => none

/-- `GolfCPU.execute_instr`: resolve register operands, apply the
instruction's effect, and finally add the instruction's cycle cost; the
cost table (`idata.cycle_counts`, not among the sources) is the
parameter `cost`. -/
def executeInstr (cost : Mnemonic → Nat) (m : Mnemonic) (args0 : List Arg)
    (s : State) : StepRes :=
  let args := resolveArgs (sigOut m) s.regs args0
  match instrAction m args s with
  | none => .err
  | some s2 => .next { s2 with cycle_count := s2.cycle_count + cost m }

/-- Read `w` bytes little-endian from `l` at position `p`
(`struct.unpack_from`, which raises when the buffer is too short). -/
def readLE (l : List Nat) (p w : Nat) : Option Nat :=
  if p + w ≤ l.length then some (leVal (slice l p w)) else none

/-- Byte width and signedness of immediate descriptor codes 1‥4
(`"_bhiQ"[arg_flag]`): 1, 2 and 4 bytes signed, 8 bytes unsigned. -/
def readImm (l : List Nat) (p f : Nat) : Option (Nat × Nat) :=
  match f with
  | 1 => (readLE l p 1).map fun n => (u (twos n 8), p + 1)
  | 2 => (readLE l p 2).map fun n => (u (twos n 16), p + 2)
  | 3 => (readLE l p 4).map fun n => (u (twos n 32), p + 4)
  | 4 => (readLE l p 8).map fun n => (u n, p + 8)
  | _ => none

/-- The operand-descriptor loop of `GolfCPU.run` (fuelled so that it is
structurally recursive; the loop strictly shrinks `flags`, so any
`fuel := flags` computes the loop exactly, as `decodeArgs` below uses):
consume 5-bit codes LSB-first until the flag field is exhausted; codes
1‥4 also consume an immediate; codes 5‥30 name a register; code 31 would
index letter 26 and raise.  Returns the operands and the instruction
pointer after the immediate tail. -/
def decodeArgsF (l : List Nat) : Nat → Nat → Nat → Option (List Arg × Nat)
  | _, 0, p => some ([], p)
  | 0, _ + 1, _ => none
  | fuel + 1, flags + 1, p =>
    let fl := flags + 1
    let f := fl % 32
    if f = 0 then
      (decodeArgsF l fuel (fl / 32) p).map fun r => (.val 0 :: r.1, r.2)
    else if h4 : f < 5 then
      match readImm l p f with
      | none => none
      | some (v, p2) =>
        (decodeArgsF l fuel (fl / 32) p2).map fun r => (.val v :: r.1, r.2)
    else if h30 : f < 31 then
      (decodeArgsF l fuel (fl / 32) p).map fun r =>
        (.reg ⟨f - 5, by omega⟩ :: r.1, r.2)
    else none

/-- The operand-descriptor loop of `GolfCPU.run`, with enough fuel. -/
def decodeArgs (l : List Nat) (flags p : Nat) : Option (List Arg × Nat) :=
  decodeArgsF l flags flags p

/-- The `ret` bitmap decode of `GolfCPU.run`: bit `i` (for `i < 25`, i.e.
letters `a`‥`y`) selects register `i`, in ascending order. -/
def decodeRetArgs (flags : Nat) : List (Fin 26) :=
  (List.finRange 26).filter fun r => decide (r.val < 25 ∧ flags.testBit r.val)

/-- A decoded instruction: mnemonic, operands, and the instruction
pointer advanced past the whole instruction. -/
inductive DecInstr where
  | ret (rs : List (Fin 26)) (nisp : Nat)
  | plain (m : Mnemonic) (args : List Arg) (nisp : Nat)
  deriving DecidableEq

/-- Instruction fetch and decode of one iteration of `GolfCPU.run`: read
the 32-bit opcode word at `isp`; low 7 bits index the mnemonic table,
the high 25 bits are the `ret` bitmap or the packed operand descriptors.
Non-`ret` operand lists are padded with literal zeros to five entries. -/
def decodeAt (s : State) : Option DecInstr :=
  match readLE s.instructions s.isp 4 with
  | none => none
  | some w =>
    match instrName (w % 128) with
    | none => none
    | some m =>
      if m = .ret then some (.ret (decodeRetArgs (w / 128)) (s.isp + 4))
      else match decodeArgs s.instructions (w / 128) (s.isp + 4) with
        | none => none
        | some (l, p) =>
          some (.plain m (l ++ List.replicate (5 - l.length) (.val 0)) p)

/-- One iteration of `GolfCPU.run`'s while loop (including the
out-of-stream and decode failures, all fatal).  `ret` pops the callstack
entry, restores `isp` and the register file, and overwrites the listed
registers with their current values — without adding any cycle cost,
since `execute_instr`'s `ret` branch returns before the cycle update.
`halt` returns decoded operand slot 0 before `execute_instr` is ever
consulted. -/
def step (cost : Mnemonic → Nat) (s : State) : StepRes :=
  match decodeAt s with
  | none => .err
  | some (.ret rs _) =>
    match s.callstack with
    | [] => .err
    | (oisp, oregs) :: rest =>
      let merged : Fin 26 → Nat := fun r => if r ∈ rs then s.regs r else oregs r
      .next { s with isp := oisp, regs := merged, callstack := rest }
  | some (.plain m l p) =>
    let s2 : State := { s with isp := p }
    if m = .halt then .halted (l.getD 0 (.val 0)) s2
    else executeInstr cost m l s2

/-- Outcome of running the VM with bounded fuel. -/
inductive RunRes where
  | err
  | halted (v : Arg) (s : State)
  | fuel (s : State)

/-- `GolfCPU.run`, with explicit fuel. -/
def run (cost : Mnemonic → Nat) : Nat → State → RunRes
  | 0, s => .fuel s
  | n + 1, s =>
    match step cost s with
    | .err => .err
    | .halted v s2 => .halted v s2
    | .next s2 => run cost n s2

/-- Cycle count of a terminated run. -/
def haltCycles : RunRes → Option Nat
  | .halted _ s2 => some s2.cycle_count
  | _ => none

/-- Cycle count observed at `halt` (the value the driver prints). -/
def runCycles (cost : Mnemonic → Nat) (fuel : Nat) (s : State) : Option Nat :=
  haltCycles (run cost fuel s)

/-- The state after a non-halting, non-failing step (observable
projection used to state concrete facts about `step`). -/
def StepRes.nextState : StepRes → Option State
  | .next s => some s
  | _ => none

/-- Register `d` after a successful step. -/
def regAfter (r : StepRes) (d : Fin 26) : Option Nat :=
  (r.nextState).map fun s => s.regs d

/-- Instruction pointer after a successful step. -/
def ispAfter (r : StepRes) : Option Nat :=
  (r.nextState).map fun s => s.isp

/-- The initial register file: everything 0 except the stack pointer
`z = 0x1000_0000_0000_0000`. -/
def initRegs : Fin 26 → Nat :=
  fun r => if r.val = 25 then stackBase else 0

/-- A fresh VM over a given instruction stream, data segment, and stdin
(`GolfCPU.__init__` after the binary header is split). -/
def mkState (instrs : List Nat) (data : List Nat := []) (stdin : List Nat := []) : State :=
  ⟨data, instrs, 0, initRegs, [], [], [], 0, stdin, [], fun _ => 0, 0⟩

/-- An operand of a logical instruction at encoding time
(`assemble.py`): a register, a label that has been resolved to a byte
offset (`Label.offset`), or an integer. -/
inductive EOperand where
  | reg (r : Fin 26)
  | lbl (off : Int)
  | int (v : Int)
  deriving DecidableEq

/-- Descriptor code and immediate bytes of one operand (`Instr.encode`):
registers are code `5 + index` with no tail; labels code 3 with a 4-byte
signed offset (`struct.pack("<i", …)` raising outside its range);
integers the narrowest of the signed 1/2/4-byte classes, literal zero
code 0, and an 8-byte tail (signed when negative, else unsigned — the
same bytes either way) for the rest of `[-2^63, 2^64)`; anything larger
hits `assert False`. -/
def flagImm : EOperand → Option (Nat × List Nat)
  | .reg r => some (5 + r.val, [])
  | .lbl o =>
    if -2 ^ 31 ≤ o ∧ o < 2 ^ 31 then
      some (3, packLE (o.emod (2 ^ 32)).toNat 4)
    else none
  | .int v =>
    if v = 0 then some (0, [])
    else if -2 ^ 7 ≤ v ∧ v < 2 ^ 7 then
      some (1, packLE (v.emod (2 ^ 8)).toNat 1)
    else if -2 ^ 15 ≤ v ∧ v < 2 ^ 15 then
      some (2, packLE (v.emod (2 ^ 16)).toNat 2)
    else if -2 ^ 31 ≤ v ∧ v < 2 ^ 31 then
      some (3, packLE (v.emod (2 ^ 32)).toNat 4)
    else if -2 ^ 63 ≤ v ∧ v < 2 ^ 64 then
      some (4, packLE (v.emod (2 ^ 64)).toNat 8)
    else none

/-- Descriptor codes and concatenated immediate tail of an operand
list. -/
def encArgs : List EOperand → Option (List Nat × List Nat)
  | [] => some ([], [])
  | a :: rest =>
    match flagImm a with
    | none => none
    | some (f, b) =>
      match encArgs rest with
      | none => none
      | some (fl, im) => some (f :: fl, b ++ im)

/-- The flag-packing loop of `Instr.encode`:
`for flag in flags[::-1]: instr_flag <<= 5; instr_flag |= flag`,
i.e. descriptor `i` lands at bits `5*i` and up. -/
def packFlagsNum : List Nat → Nat
  | [] => 0
  | f :: fl => f + 32 * packFlagsNum fl

/-- `Instr.encode` for a non-`ret` instruction: the 32-bit opcode word
`id | (flags << 7)` followed by the immediate tail.  `struct.pack("<I")`
raises when the word exceeds 32 bits. -/
def encode (m : Mnemonic) (args : List EOperand) : Option (List Nat) :=
  match encArgs args with
  | none => none
  | some (fl, im) =>
    if instrId m + packFlagsNum fl * 128 < 2 ^ 32 then
      some (packLE (instrId m + packFlagsNum fl * 128) 4 ++ im)
    else none

/-- The 25-bit `ret` bitmap of `Instr.encode`: bit `i` set when letter
`i` is among the operands, ranging over `string.ascii_lowercase[:-1]` —
all letters except `z`. -/
def retBitmap (rs : List (Fin 26)) : Nat :=
  ∑ i ∈ Finset.range 25, if rs.any fun r => r.val = i then 2 ^ i else 0

/-- `Instr.encode` for `ret`: the single word `id | (bitmap << 7)`. -/
def encodeRet (rs : List (Fin 26)) : List Nat :=
  packLE (instrId .ret + retBitmap rs * 128) 4

/-- The per-operand byte cost of `Instr.size`: 0 for registers and
literal zero, 4 for labels, else the narrowest signed width, 8 bytes up
to `2^64`; anything larger hits `assert False`. -/
def immWidth : EOperand → Option Nat
  | .reg _ => some 0
  | .lbl _ => some 4
  | .int v =>
    if v = 0 then some 0
    else if -2 ^ 7 ≤ v ∧ v < 2 ^ 7 then some 1
    else if -2 ^ 15 ≤ v ∧ v < 2 ^ 15 then some 2
    else if -2 ^ 31 ≤ v ∧ v < 2 ^ 31 then some 4
    else if -2 ^ 63 ≤ v ∧ v < 2 ^ 64 then some 8
    else none

/-- A `data(…)` payload (`class Data`): a byte string, a text string
(a list of Unicode code points), or a tuple of integers. -/
inductive Payload where
  | bytes (bs : List Nat)
  | text (cs : List Nat)
  | ints (ns : List Int)
  deriving DecidableEq

/-- UTF-8 encoding of one code point (what Python `str.encode("utf-8")`
produces per character). -/
def utf8Char (c : Nat) : List Nat :=
  if c < 128 then [c]
  else if c < 2048 then [192 + c / 64, 128 + c % 64]
  else if c < 65536 then [224 + c / 4096, 128 + c / 64 % 64, 128 + c % 64]
  else [240 + c / 262144, 128 + c / 4096 % 64, 128 + c / 64 % 64, 128 + c % 64]

/-- `Data.encode`: byte strings verbatim; text as UTF-8 plus one zero
byte; integer tuples as little-endian 64-bit words with two's-complement
wrap (`struct.pack("<Q", n & 0xffffffffffffffff)`). -/
def Payload.encode : Payload → List Nat
  | .bytes bs => bs
  | .text cs => cs.flatMap utf8Char ++ [0]
  | .ints ns => ns.flatMap fun n => packLE (u n) 8

/-- Python dict lookup on the pooler's `data_offsets`. -/
def lookupP : List (Payload × Nat) → Payload → Option Nat
  | [], _ => none
  | (q, o) :: t, p => if q = p then some o else lookupP t p

/-- The data-substitution pass of `assemble` over the sequence of
`data(…)` operand sites: a payload not pooled yet is appended to the data
segment and recorded at its byte offset; every site is replaced by
`0x2000_0000_0000_0000 + offset`.  Returns the guest addresses
substituted at each site and the final data segment. -/
def dataPass : List Payload → List Nat → List (Payload × Nat) → List Nat × List Nat
  | [], seg, _ => ([], seg)
  | p :: ps, seg, offs =>
    match lookupP offs p with
    | some o =>
      let r := dataPass ps seg offs
      ((dataBase + o) :: r.1, r.2)
    | none =>
      let o := seg.length
      let r := dataPass ps (seg ++ p.encode) ((p, o) :: offs)
      ((dataBase + o) :: r.1, r.2)

/-! ## Shared concrete objects and observable projections -/

/-- Register `a`. -/
def regA : Fin 26 := ⟨0, by omega⟩

/-- Register `b`. -/
def regB : Fin 26 := ⟨1, by omega⟩

/-- Register `z`, the stack pointer. -/
def regZ : Fin 26 := ⟨25, by omega⟩

/-- Value returned by a load, without the (undecidable-to-compare)
state. -/
def loadVal (s : State) (a w : Nat) : Option Nat :=
  (load s a w).map (·.1)

/-- The 64-bit value a legal operand must decode back to: registers
unchanged, labels and integers as their value reduced to `[0, 2^64)`
(`decode` reads every immediate back through `u`). -/
def denote : EOperand → Arg
  | .reg r => .reg r
  | .lbl o => .val (u o)
  | .int v => .val (u v)

/-! ## C10 — `not` is logical negation -/

theorem executeInstr_not_apply (cost : Mnemonic → Nat) (d : Fin 26) (x : Nat)
    (s : State) :
    regAfter (executeInstr cost .not [.reg d, .val x] s) d =
      some (if x = 0 then 1 else 0) := by
  simp [executeInstr, instrAction, resolveArgs, resolveArgsGo, outReg, inVal,
    setReg, regAfter, StepRes.nextState, sigOut]

/-- C10: the `not` instruction computes logical negation: `not d, x`
writes 1 to `d` when the operand value `x` is zero and 0 otherwise,
whether `x` is an immediate or a register operand — never a bitwise
complement. -/
theorem not_is_logical_negation (cost : Mnemonic → Nat) (d : Fin 26) (s : State) :
    (∀ x : Nat, regAfter (executeInstr cost .not [.reg d, .val x] s) d =
      some (if x = 0 then 1 else 0)) ∧
    (∀ r : Fin 26, regAfter (executeInstr cost .not [.reg d, .reg r] s) d =
      some (if s.regs r = 0 then 1 else 0)) := by
  constructor
  · intro x
    exact executeInstr_not_apply cost d x s
  · intro r
    simp [executeInstr, instrAction, resolveArgs, resolveArgsGo, outReg, inVal,
      setReg, regAfter, StepRes.nextState, sigOut]

/-! ## C4 — register values can escape `[0, 2^64)`: `shl`/`shr` results
are not reduced (`golf.py` lines 122–123 lack the `self.u(…)` wrapper
that `add`, `sub`, `sar`, … apply) -/

/-- A program whose single instruction is `shl a, 1, 64`. -/
def c4prog : List Nat :=
  (encode .shl [.reg regA, .int 1, .int 64]).getD []

/-- C4 (failing input): executing the single instruction `shl a, 1, 64`
on a fresh VM leaves `2 ^ 64` — an out-of-range value — in register `a`;
`execute_instr` stores the raw Python `1 << 64` without reducing modulo
`2 ^ 64`. -/
theorem shl_result_not_reduced :
    regAfter (step (fun _ => 0) (mkState c4prog)) regA = some (2 ^ 64) ∧
      ¬ (2 : Nat) ^ 64 < 2 ^ 64 := by
  constructor
  · decide
  · omega

/-! ## C5 — the stdio sentinel load: `return r or self.u(-1)` turns a
NUL byte into `2^64 - 1`, and at EOF `ord(sys.stdin.read(1))` raises
instead of returning `2^64 - 1` -/

/-- C5 (failing inputs): an 8-byte load at `0xFFFF…FF` returns
`2^64 - 1` for an input byte `0x00` (the claim requires the byte's value,
0); at EOF it is a runtime error (the claim requires `2^64 - 1`).  A
non-zero byte is returned correctly, and any other width is an error, as
the claim states. -/
theorem stdin_sentinel_load_bug :
    loadVal (mkState [] [] [0]) stdioAddr 8 = some (2 ^ 64 - 1) ∧
    loadVal (mkState [] [] []) stdioAddr 8 = none ∧
    loadVal (mkState [] [] [65]) stdioAddr 8 = some 65 ∧
    loadVal (mkState [] [] [65]) stdioAddr 4 = none := by
  refine ⟨by decide, by decide, by decide, by decide⟩

/-! ## C3 — the encoder picks the narrowest immediate class -/

theorem packLE_length (n w : Nat) : (packLE n w).length = w := by
  induction w generalizing n with
  | zero => rfl
  | succ k ih => simp [packLE, ih]

/-- The spec's immediate classes (§4.5): byte width `c ∈ {0,1,2,4,8}`
holds `v` when `v` is in the stated range; written from the spec's words
for comparison with the encoder's choice. -/
def specClass (c : Nat) (v : Int) : Bool :=
  match c with
  | 0 => v = 0
  | 1 => decide (-(2 : Int) ^ 7 ≤ v ∧ v < 2 ^ 7)
  | 2 => decide (-(2 : Int) ^ 15 ≤ v ∧ v < 2 ^ 15)
  | 4 => decide (-(2 : Int) ^ 31 ≤ v ∧ v < 2 ^ 31)
  | 8 => decide (-(2 : Int) ^ 63 ≤ v ∧ v < 2 ^ 64)
  | _ => false

/-- C3: for every integer operand in `[-2^63, 2^64)`, the width chosen by
`Instr.size` is a class containing the value and no smaller class
contains it (so it is the unique smallest); `Instr.encode` emits exactly
that many immediate bytes.  Every label operand gets descriptor code 3
with 4 immediate bytes. -/
theorem imm_class_narrowest :
    (∀ v : Int, -2 ^ 63 ≤ v → v < 2 ^ 64 →
      ∃ w f bs, immWidth (.int v) = some w ∧ flagImm (.int v) = some (f, bs) ∧
        bs.length = w ∧ specClass w v = true ∧
        ∀ c, specClass c v = true → w ≤ c) ∧
    (∀ o : Int, -2 ^ 31 ≤ o → o < 2 ^ 31 →
      immWidth (.lbl o) = some 4 ∧
        ∃ bs, flagImm (.lbl o) = some (3, bs) ∧ bs.length = 4) := by
  constructor
  · intro v h63 h64
    by_cases h0 : v = 0
    · refine ⟨0, 0, [], ?_, ?_, rfl, ?_, ?_⟩
      · simp only [immWidth]
        rw [if_pos h0]
      · simp only [flagImm]
        rw [if_pos h0]
      · simp [specClass, h0]
      · intro c _
        exact Nat.zero_le c
    by_cases h7 : -2 ^ 7 ≤ v ∧ v < 2 ^ 7
    · refine ⟨1, 1, packLE (v.emod (2 ^ 8)).toNat 1, ?_, ?_, packLE_length _ _, ?_, ?_⟩
      · simp only [immWidth]
        rw [if_neg h0, if_pos h7]
      · simp only [flagImm]
        rw [if_neg h0, if_pos h7]
      · simp only [specClass, decide_eq_true_eq]
        omega
      · intro c hc
        match c with
        | 0 => simp [specClass, h0] at hc
        | n + 1 => omega
    by_cases h15 : -2 ^ 15 ≤ v ∧ v < 2 ^ 15
    · refine ⟨2, 2, packLE (v.emod (2 ^ 16)).toNat 2, ?_, ?_, packLE_length _ _, ?_, ?_⟩
      · simp only [immWidth]
        rw [if_neg h0, if_neg h7, if_pos h15]
      · simp only [flagImm]
        rw [if_neg h0, if_neg h7, if_pos h15]
      · simp only [specClass, decide_eq_true_eq]
        omega
      · intro c hc
        match c with
        | 0 => simp [specClass, h0] at hc
        | 1 => simp only [specClass, decide_eq_true_eq] at hc; omega
        | n + 2 => omega
    by_cases h31 : -2 ^ 31 ≤ v ∧ v < 2 ^ 31
    · refine ⟨4, 3, packLE (v.emod (2 ^ 32)).toNat 4, ?_, ?_, packLE_length _ _, ?_, ?_⟩
      · simp only [immWidth]
        rw [if_neg h0, if_neg h7, if_neg h15, if_pos h31]
      · simp only [flagImm]
        rw [if_neg h0, if_neg h7, if_neg h15, if_pos h31]
      · simp only [specClass, decide_eq_true_eq]
        omega
      · intro c hc
        match c with
        | 0 => simp [specClass, h0] at hc
        | 1 => simp only [specClass, decide_eq_true_eq] at hc; omega
        | 2 => simp only [specClass, decide_eq_true_eq] at hc; omega
        | 3 => simp [specClass] at hc
        | n + 4 => omega
    · refine ⟨8, 4, packLE (v.emod (2 ^ 64)).toNat 8, ?_, ?_, packLE_length _ _, ?_, ?_⟩
      · simp only [immWidth]
        rw [if_neg h0, if_neg h7, if_neg h15, if_neg h31, if_pos ⟨h63, h64⟩]
      · simp only [flagImm]
        rw [if_neg h0, if_neg h7, if_neg h15, if_neg h31, if_pos ⟨h63, h64⟩]
      · simp only [specClass, decide_eq_true_eq]
        omega
      · intro c hc
        match c with
        | 0 => simp [specClass, h0] at hc
        | 1 => simp only [specClass, decide_eq_true_eq] at hc; omega
        | 2 => simp only [specClass, decide_eq_true_eq] at hc; omega
        | 3 => simp [specClass] at hc
        | 4 => simp only [specClass, decide_eq_true_eq] at hc; omega
        | 5 => simp [specClass] at hc
        | 6 => simp [specClass] at hc
        | 7 => simp [specClass] at hc
        | n + 8 => omega
  · intro o ho1 ho2
    refine ⟨rfl, packLE (o.emod (2 ^ 32)).toNat 4, ?_, packLE_length _ _⟩
    simp only [flagImm]
    rw [if_pos ⟨ho1, ho2⟩]

/-- Witness for `imm_class_narrowest` at the integer operand 300 and
label offset 17. -/
theorem imm_class_narrowest_witness :
    ((-(2 : Int) ^ 63 ≤ 300 ∧ (300 : Int) < 2 ^ 64) ∧
      ∃ w f bs, immWidth (.int 300) = some w ∧ flagImm (.int 300) = some (f, bs) ∧
        bs.length = w ∧ specClass w 300 = true ∧
        ∀ c, specClass c 300 = true → w ≤ c) ∧
    ((-(2 : Int) ^ 31 ≤ 17 ∧ (17 : Int) < 2 ^ 31) ∧
      (immWidth (.lbl 17) = some 4 ∧
        ∃ bs, flagImm (.lbl 17) = some (3, bs) ∧ bs.length = 4)) :=
  ⟨⟨by norm_num, imm_class_narrowest.1 300 (by norm_num) (by norm_num)⟩,
    ⟨by norm_num, imm_class_narrowest.2 17 (by norm_num) (by norm_num)⟩⟩

/-! ## C7 — data-literal pooling -/

theorem dataPass_addr_known (ps : List Payload) :
    ∀ (seg : List Nat) (offs : List (Payload × Nat)) (p : Payload) (o i : Nat),
      lookupP offs p = some o → ps[i]? = some p →
      (dataPass ps seg offs).1[i]? = some (dataBase + o) := by
  induction ps with
  | nil =>
    intro seg offs p o i _ hi
    simp at hi
  | cons q t ih =>
    intro seg offs p o i hl hi
    cases hq : lookupP offs q with
    | some o2 =>
      simp only [dataPass, hq]
      cases i with
      | zero =>
        simp only [List.getElem?_cons_zero, Option.some.injEq] at hi
        subst hi
        rw [hl] at hq
        injection hq with h2
        simp only [List.getElem?_cons_zero, Option.some.injEq]
        omega
      | succ i2 =>
        simp only [List.getElem?_cons_succ] at hi ⊢
        exact ih seg offs p o i2 hl hi
    | none =>
      simp only [dataPass, hq]
      cases i with
      | zero =>
        simp only [List.getElem?_cons_zero, Option.some.injEq] at hi
        subst hi
        rw [hl] at hq
        cases hq
      | succ i2 =>
        simp only [List.getElem?_cons_succ] at hi ⊢
        refine ih _ _ p o i2 ?_ hi
        have hqp : q ≠ p := by
          intro he
          rw [he, hl] at hq
          cases hq
        simp [lookupP, hqp, hl]

theorem dataPass_same_addr (ps : List Payload) :
    ∀ (seg : List Nat) (offs : List (Payload × Nat)) (i j : Nat) (p : Payload),
      ps[i]? = some p → ps[j]? = some p →
      (dataPass ps seg offs).1[i]? = (dataPass ps seg offs).1[j]? := by
  induction ps with
  | nil =>
    intro seg offs i j p hi _
    simp at hi
  | cons q t ih =>
    intro seg offs i j p hi hj
    cases i with
    | zero =>
      cases j with
      | zero => rfl
      | succ j2 =>
        simp only [List.getElem?_cons_zero, Option.some.injEq] at hi
        subst hi
        simp only [List.getElem?_cons_succ] at hj
        cases hq : lookupP offs q with
        | some o =>
          simp only [dataPass, hq, List.getElem?_cons_zero, List.getElem?_cons_succ]
          exact (dataPass_addr_known t seg offs q o j2 hq hj).symm
        | none =>
          simp only [dataPass, hq, List.getElem?_cons_zero, List.getElem?_cons_succ]
          refine (dataPass_addr_known t _ _ q seg.length j2 ?_ hj).symm
          simp [lookupP]
    | succ i2 =>
      cases j with
      | zero =>
        simp only [List.getElem?_cons_zero, Option.some.injEq] at hj
        subst hj
        simp only [List.getElem?_cons_succ] at hi
        cases hq : lookupP offs q with
        | some o =>
          simp only [dataPass, hq, List.getElem?_cons_zero, List.getElem?_cons_succ]
          exact dataPass_addr_known t seg offs q o i2 hq hi
        | none =>
          simp only [dataPass, hq, List.getElem?_cons_zero, List.getElem?_cons_succ]
          refine dataPass_addr_known t _ _ q seg.length i2 ?_ hi
          simp [lookupP]
      | succ j2 =>
        simp only [List.getElem?_cons_succ] at hi hj
        cases hq : lookupP offs q with
        | some o =>
          simp only [dataPass, hq, List.getElem?_cons_succ]
          exact ih seg offs i2 j2 p hi hj
        | none =>
          simp only [dataPass, hq, List.getElem?_cons_succ]
          exact ih _ _ i2 j2 p hi hj

/-- C7: two `data(…)` operands with equal payload are substituted with
the same guest address, whatever the surrounding operand sequence; and in
the concrete scenario, `data("hi")` referenced twice is pooled into one
3-byte slot `68 69 00` at data-segment offset 0, both sites resolving to
`0x2000_0000_0000_0000` (text payloads encode as UTF-8 plus one zero
byte). -/
theorem data_pool_dedup :
    (∀ (ps : List Payload) (i j : Nat) (p : Payload),
      ps[i]? = some p → ps[j]? = some p →
        (dataPass ps [] []).1[i]? = (dataPass ps [] []).1[j]?) ∧
    Payload.encode (.text [104, 105]) = [104, 105, 0] ∧
    dataPass [.text [104, 105], .text [104, 105]] [] [] =
      ([dataBase, dataBase], [104, 105, 0]) := by
  refine ⟨fun ps i j p hi hj => dataPass_same_addr ps [] [] i j p hi hj, by decide, by decide⟩

/-- Witness for `data_pool_dedup` on the two-site `data("hi")`
scenario. -/
theorem data_pool_dedup_witness :
    (([Payload.text [104, 105], Payload.text [104, 105]] : List Payload)[0]? =
      some (Payload.text [104, 105]) ∧
     ([Payload.text [104, 105], Payload.text [104, 105]] : List Payload)[1]? =
      some (Payload.text [104, 105])) ∧
    (dataPass [Payload.text [104, 105], Payload.text [104, 105]] [] []).1[0]? =
      (dataPass [Payload.text [104, 105], Payload.text [104, 105]] [] []).1[1]? :=
  ⟨⟨by decide, by decide⟩,
    data_pool_dedup.1 [Payload.text [104, 105], Payload.text [104, 105]] 0 1
      (Payload.text [104, 105]) (by decide) (by decide)⟩

/-! ## C6 — zero-filling happens on store, not on load -/

theorem leVal_replicate_zero (n : Nat) : leVal (List.replicate n 0) = 0 := by
  induction n with
  | zero => rfl
  | succ k ih => simp [List.replicate, leVal, ih]

/-- C6 counterexample: on a fresh VM (empty heap and stack), an 8-byte
load from heap address 0 or stack address `0x1000_0000_0000_0000` is a
runtime error (`struct.unpack` receives a short slice), not 0. -/
theorem fresh_segment_load_fails :
    loadVal (mkState []) 0 8 = none ∧ loadVal (mkState []) stackBase 8 = none := by
  refine ⟨by decide, by decide⟩

/-- A store whose range starts at or past the end of the heap rewrites it
to the old bytes, a zero gap, and the stored bytes. -/
theorem writeBytes_extend (l : List Nat) (a : Nat) (bs : List Nat)
    (hl : l.length ≤ a) (hbs : 1 ≤ bs.length) :
    writeBytes l a bs = l ++ List.replicate (a - l.length) 0 ++ bs := by
  have hlt : l.length < a + bs.length := by omega
  simp only [writeBytes, if_pos hlt]
  have hlen : (l ++ List.replicate (a + bs.length - l.length) 0).length = a + bs.length := by
    simp
    omega
  rw [List.take_append_eq_append_take, List.take_of_length_le (by omega),
    List.take_replicate, List.drop_eq_nil_of_le (by omega)]
  have hmin : min (a - l.length) (a + bs.length - l.length) = a - l.length := by omega
  rw [hmin]
  simp

/-- Slicing entirely inside the zero gap produced by `writeBytes`. -/
theorem slice_zero_gap (l : List Nat) (a g v : Nat) (bs : List Nat)
    (hl : l.length ≤ g) (hgv : g + v ≤ a) (hv : 1 ≤ v) :
    slice (l ++ List.replicate (a - l.length) 0 ++ bs) g v = List.replicate v 0 := by
  have hga : g ≤ (l ++ List.replicate (a - l.length) 0).length := by
    simp
    omega
  simp only [slice]
  rw [List.drop_append_of_le_length hga, List.drop_append_eq_append_drop,
    List.drop_eq_nil_of_le hl, List.drop_replicate, List.nil_append]
  have hva : v ≤ (List.replicate (a - l.length - (g - l.length)) (0 : Nat)).length := by
    rw [List.length_replicate]
    omega
  rw [List.take_append_of_le_length hva, List.take_replicate]
  have hmin : min v (a - l.length - (g - l.length)) = v := by omega
  rw [hmin]

theorem heap_load_past_end_fails (s : State) (a w : Nat)
    (hw : w = 1 ∨ w = 2 ∨ w = 4 ∨ w = 8) (ha : a < stackBase)
    (hlen : s.heap.length < a + w) : loadVal s a w = none := by
  have ha2 : a < 2 ^ 60 := ha
  have hio : a ≠ stdioAddr := by
    simp only [stdioAddr]
    omega
  have hdb : ¬ dataBase ≤ a := by
    simp only [dataBase]
    omega
  have hsb : ¬ stackBase ≤ a := by omega
  have hshort : (slice s.heap a w).length ≠ w := by
    simp only [slice, List.length_take, List.length_drop]
    omega
  simp only [loadVal, load, if_neg hio, if_neg hdb, if_neg hsb, if_pos hw,
    if_neg hshort, Option.map_none']

theorem stack_load_past_end_fails (s : State) (a w : Nat)
    (hw : w = 1 ∨ w = 2 ∨ w = 4 ∨ w = 8) (ha1 : stackBase ≤ a) (ha2 : a < dataBase)
    (hlen : s.stack.length < (a - stackBase) + w) : loadVal s a w = none := by
  have hdb2 : a < 2 ^ 61 := ha2
  have hio : a ≠ stdioAddr := by
    simp only [stdioAddr]
    omega
  have hdb : ¬ dataBase ≤ a := by
    simp only [dataBase]
    omega
  have hshort : (slice s.stack (a - stackBase) w).length ≠ w := by
    simp only [slice, List.length_take, List.length_drop]
    omega
  simp only [loadVal, load, if_neg hio, if_neg hdb, if_pos ha1, if_pos hw,
    if_neg hshort, Option.map_none']

/-- C6, amended: heap and stack are zero-filled by *stores*, not by
loads.  (i)/(ii) A load whose range extends past the heap resp. stack
bytes materialized so far is a runtime error, even if the range was never
written.  (iii)/(iv) A store past the current end of the heap resp. stack
grows the segment with zeros up to the stored range, and a subsequent
load lying inside that zero gap (above the old end, below the store
offset) succeeds and returns 0. -/
theorem zero_fill_on_store_only :
    (∀ (s : State) (a w : Nat), (w = 1 ∨ w = 2 ∨ w = 4 ∨ w = 8) →
      a < stackBase → s.heap.length < a + w → loadVal s a w = none) ∧
    (∀ (s : State) (a w : Nat), (w = 1 ∨ w = 2 ∨ w = 4 ∨ w = 8) →
      stackBase ≤ a → a < dataBase → s.stack.length < (a - stackBase) + w →
      loadVal s a w = none) ∧
    (∀ (s : State) (a b w g v : Nat), (w = 1 ∨ w = 2 ∨ w = 4 ∨ w = 8) →
      (v = 1 ∨ v = 2 ∨ v = 4 ∨ v = 8) → a < stackBase →
      s.heap.length ≤ g → g + v ≤ a →
      ∃ s2, store s a b w = some s2 ∧ loadVal s2 g v = some 0) ∧
    (∀ (s : State) (a b w g v : Nat), (w = 1 ∨ w = 2 ∨ w = 4 ∨ w = 8) →
      (v = 1 ∨ v = 2 ∨ v = 4 ∨ v = 8) → stackBase ≤ a → a < dataBase →
      s.stack.length ≤ g → g + v ≤ a - stackBase →
      ∃ s2, store s a b w = some s2 ∧ loadVal s2 (stackBase + g) v = some 0) := by
  refine ⟨heap_load_past_end_fails, stack_load_past_end_fails, ?_, ?_⟩
  · intro s a b w g v hw hv ha hg hga
    have ha2 : a < 2 ^ 60 := ha
    have haio : a ≠ stdioAddr := by
      simp only [stdioAddr]
      omega
    have hadb : ¬ dataBase ≤ a := by
      simp only [dataBase]
      omega
    have hasb : ¬ stackBase ≤ a := by omega
    have hwlen : (packLE (b % 2 ^ (8 * w)) w).length = w := packLE_length _ _
    refine ⟨{ s with heap := writeBytes s.heap a (packLE (b % 2 ^ (8 * w)) w) }, ?_, ?_⟩
    · simp only [store, if_neg haio, if_pos hw, if_neg hadb, if_neg hasb]
    · have hheap : writeBytes s.heap a (packLE (b % 2 ^ (8 * w)) w) =
          s.heap ++ List.replicate (a - s.heap.length) 0 ++ packLE (b % 2 ^ (8 * w)) w := by
        refine writeBytes_extend _ _ _ (by omega) (by omega)
      have hgio : g ≠ stdioAddr := by
        simp only [stdioAddr]
        omega
      have hgdb : ¬ dataBase ≤ g := by
        simp only [dataBase]
        omega
      have hgsb : ¬ stackBase ≤ g := by
        simp only [stackBase] at *
        omega
      have hslice : slice (writeBytes s.heap a (packLE (b % 2 ^ (8 * w)) w)) g v =
          List.replicate v 0 := by
        rw [hheap]
        exact slice_zero_gap _ _ _ _ _ hg hga (by omega)
      simp only [loadVal, load, if_neg hgio, if_neg hgdb, if_neg hgsb, hslice,
        if_pos hv, List.length_replicate, if_pos rfl, leVal_replicate_zero,
        Option.map_some']
      simp
  · intro s a b w g v hw hv ha1 ha2 hg hga
    have hdb2 : a < 2 ^ 61 := ha2
    have hsb2 : (2:Nat) ^ 60 ≤ a := ha1
    have haio : a ≠ stdioAddr := by
      simp only [stdioAddr]
      omega
    have hadb : ¬ dataBase ≤ a := by
      simp only [dataBase]
      omega
    have hwlen : (packLE (b % 2 ^ (8 * w)) w).length = w := packLE_length _ _
    refine ⟨{ s with stack := writeBytes s.stack (a - stackBase) (packLE (b % 2 ^ (8 * w)) w) },
      ?_, ?_⟩
    · simp only [store, if_neg haio, if_pos hw, if_neg hadb, if_pos ha1]
    · have hstk : writeBytes s.stack (a - stackBase) (packLE (b % 2 ^ (8 * w)) w) =
          s.stack ++ List.replicate (a - stackBase - s.stack.length) 0 ++
            packLE (b % 2 ^ (8 * w)) w := by
        refine writeBytes_extend _ _ _ (by omega) (by omega)
      have hgio : stackBase + g ≠ stdioAddr := by
        simp only [stdioAddr, stackBase, dataBase] at *
        omega
      have hgdb : ¬ dataBase ≤ stackBase + g := by
        simp only [stackBase, dataBase] at *
        omega
      have hgsb : stackBase ≤ stackBase + g := Nat.le_add_right _ _
      have hoff : stackBase + g - stackBase = g := by omega
      have hslice : slice (writeBytes s.stack (a - stackBase) (packLE (b % 2 ^ (8 * w)) w))
          g v = List.replicate v 0 := by
        rw [hstk]
        exact slice_zero_gap _ _ _ _ _ hg hga (by omega)
      simp only [loadVal, load, if_neg hgio, if_neg hgdb, if_pos hgsb, hoff, hslice,
        if_pos hv, List.length_replicate, if_pos rfl, leVal_replicate_zero,
        Option.map_some']
      simp

/-- Witness for `zero_fill_on_store_only`: on a fresh VM, an 8-byte load
at heap address 0 or stack address `stackBase` fails; after `sw 16, 300`
the untouched heap gap bytes at address 8 load as 0, and after
`sw stackBase + 16, 300` the untouched stack gap bytes at
`stackBase + 8` load as 0. -/
theorem zero_fill_on_store_only_witness :
    (loadVal (mkState []) 0 8 = none) ∧
    (loadVal (mkState []) stackBase 8 = none) ∧
    (∃ s2, store (mkState []) 16 300 8 = some s2 ∧ loadVal s2 8 8 = some 0) ∧
    (∃ s2, store (mkState []) (stackBase + 16) 300 8 = some s2 ∧
      loadVal s2 (stackBase + 8) 8 = some 0) :=
  ⟨zero_fill_on_store_only.1 (mkState []) 0 8 (by norm_num) (by decide) (by decide),
    zero_fill_on_store_only.2.1 (mkState []) stackBase 8 (by norm_num) (le_refl _)
      (by decide) (by decide),
    zero_fill_on_store_only.2.2.1 (mkState []) 16 300 8 8 8 (by norm_num) (by norm_num)
      (by decide) (by decide) (by norm_num),
    zero_fill_on_store_only.2.2.2 (mkState []) (stackBase + 16) 300 8 8 8 (by norm_num)
      (by norm_num) (Nat.le_add_right _ _) (by decide) (by decide) (by decide)⟩

/-! ## C8 — cycle counting: the final `halt` never adds its cost,
because `run` returns before `execute_instr` is called -/

/-- The assembled form of spec scenario 2 after pseudo-expansion:
`loop: add a, a, -1 ; jnz loop, a ; halt 0`. -/
def c8prog : List Nat :=
  (encode .add [.reg regA, .reg regA, .int (-1)]).getD [] ++
  (encode .jnz [.lbl 0, .reg regA]).getD [] ++
  (encode .halt [.int 0]).getD []

/-- Scenario 2's start state: `a = 3`. -/
def c8s : State :=
  { mkState c8prog with regs := Function.update initRegs regA 3 }

/-- C8 counterexample: with every cycle cost equal to 1, the `dec`/`snz`
loop of scenario 2 halts after 6 counted cycles — `3*C(add) + 3*C(jnz)`,
not the claimed `3*C(add) + 3*C(jnz) + C(halt) = 7`: `run` returns on
`halt` before `execute_instr` can add its cost. -/
theorem cycle_count_omits_halt :
    runCycles (fun _ => 1) 10 c8s = some 6 ∧
      3 * 1 + 3 * 1 + 1 ≠ 6 := by
  refine ⟨by decide, by omega⟩

/-- The decoder only looks at the instruction stream and the instruction
pointer. -/
theorem decodeAt_congr (s t : State) (h1 : s.instructions = t.instructions)
    (h2 : s.isp = t.isp) : decodeAt s = decodeAt t := by
  unfold decodeAt
  rw [h1, h2]

/-- The `plain` branch of `step`, given the decoded instruction. -/
theorem step_plain (cost : Mnemonic → Nat) (m : Mnemonic) (l : List Arg) (p : Nat)
    (s : State) (h : decodeAt s = some (.plain m l p)) (hm : m ≠ .halt) :
    step cost s = executeInstr cost m l { s with isp := p } := by
  simp only [step, h, if_neg hm]

/-- The `halt` interception of `run`, given the decoded instruction. -/
theorem step_halted (cost : Mnemonic → Nat) (l : List Arg) (p : Nat)
    (s : State) (h : decodeAt s = some (.plain .halt l p)) :
    step cost s = .halted (l.getD 0 (.val 0)) { s with isp := p } := by
  simp only [step, h]
  simp

theorem run_succ_next (cost : Mnemonic → Nat) (n : Nat) (s s2 : State)
    (h : step cost s = .next s2) : run cost (n + 1) s = run cost n s2 := by
  rw [run, h]

theorem run_succ_halt (cost : Mnemonic → Nat) (n : Nat) (s : State) (v : Arg) (s2 : State)
    (h : step cost s = .halted v s2) : run cost (n + 1) s = .halted v s2 := by
  rw [run, h]

/-- The scenario-2 machine at instruction pointer `p`, register file `r`
and cycle count `c`. -/
def c8at (p : Nat) (r : Fin 26 → Nat) (c : Nat) : State :=
  { c8s with isp := p, regs := r, cycle_count := c }

theorem c8_decode_add : decodeAt c8s =
    some (.plain .add [.reg regA, .reg regA, .val (2 ^ 64 - 1), .val 0, .val 0] 5) := rfl

theorem c8_decode_jnz : decodeAt { c8s with isp := 5 } =
    some (.plain .jnz [.val 0, .reg regA, .val 0, .val 0, .val 0] 13) := rfl

theorem c8_decode_halt : decodeAt { c8s with isp := 13 } =
    some (.plain .halt [.val 0, .val 0, .val 0, .val 0, .val 0] 17) := rfl

theorem c8_step_add (cost : Mnemonic → Nat) (r : Fin 26 → Nat) (c : Nat) :
    step cost (c8at 0 r c) = .next (c8at 5
      (Function.update r regA ((r regA + (2 ^ 64 - 1)) % 2 ^ 64)) (c + cost .add)) := by
  have hd : decodeAt (c8at 0 r c) =
      some (.plain .add [.reg regA, .reg regA, .val (2 ^ 64 - 1), .val 0, .val 0] 5) := by
    rw [decodeAt_congr (c8at 0 r c) c8s rfl rfl]
    exact c8_decode_add
  rw [step_plain cost _ _ _ _ hd (by intro hc; cases hc)]
  rfl

theorem c8_step_jnz (cost : Mnemonic → Nat) (r : Fin 26 → Nat) (c : Nat) :
    step cost (c8at 5 r c) = .next
      (c8at (if r regA ≠ 0 then 0 else 13) r (c + cost .jnz)) := by
  have hd : decodeAt (c8at 5 r c) =
      some (.plain .jnz [.val 0, .reg regA, .val 0, .val 0, .val 0] 13) := by
    rw [decodeAt_congr (c8at 5 r c) { c8s with isp := 5 } rfl rfl]
    exact c8_decode_jnz
  rw [step_plain cost _ _ _ _ hd (by intro hc; cases hc)]
  rfl

theorem c8_step_halt (cost : Mnemonic → Nat) (r : Fin 26 → Nat) (c : Nat) :
    step cost (c8at 13 r c) = .halted (.val 0) (c8at 17 r c) := by
  have hd : decodeAt (c8at 13 r c) =
      some (.plain .halt [.val 0, .val 0, .val 0, .val 0, .val 0] 17) := by
    rw [decodeAt_congr (c8at 13 r c) { c8s with isp := 13 } rfl rfl]
    exact c8_decode_halt
  rw [step_halted cost _ _ _ hd]
  rfl

section C8Trace

variable (cost : Mnemonic → Nat)

theorem c8_fact1 : step cost (c8at 0 (Function.update initRegs regA 3) 0) = .next
    (c8at 5 (Function.update (Function.update initRegs regA 3) regA 2) (0 + cost .add)) := by
  have e1 : ((Function.update initRegs regA 3 : Fin 26 → Nat) regA + (2 ^ 64 - 1)) % 2 ^ 64
      = 2 := by
    rw [Function.update_same]
    decide
  have h1 := c8_step_add cost (Function.update initRegs regA 3) 0
  rw [e1] at h1
  exact h1

theorem c8_fact2 : step cost
    (c8at 5 (Function.update (Function.update initRegs regA 3) regA 2) (0 + cost .add)) = .next
    (c8at 0 (Function.update (Function.update initRegs regA 3) regA 2)
      (0 + cost .add + cost .jnz)) := by
  have h := c8_step_jnz cost
    (Function.update (Function.update initRegs regA 3) regA 2) (0 + cost .add)
  rw [Function.update_same] at h
  rw [show (if (2 : Nat) ≠ 0 then (0 : Nat) else 13) = 0 by norm_num] at h
  exact h

theorem c8_fact3 : step cost
    (c8at 0 (Function.update (Function.update initRegs regA 3) regA 2)
      (0 + cost .add + cost .jnz)) = .next
    (c8at 5 (Function.update (Function.update (Function.update initRegs regA 3) regA 2) regA 1)
      (0 + cost .add + cost .jnz + cost .add)) := by
  have h := c8_step_add cost
    (Function.update (Function.update initRegs regA 3) regA 2) (0 + cost .add + cost .jnz)
  rw [Function.update_same] at h
  rw [show ((2 + (2 ^ 64 - 1)) % 2 ^ 64 : Nat) = 1 by decide] at h
  exact h

theorem c8_fact4 : step cost
    (c8at 5 (Function.update (Function.update (Function.update initRegs regA 3) regA 2) regA 1)
      (0 + cost .add + cost .jnz + cost .add)) = .next
    (c8at 0 (Function.update (Function.update (Function.update initRegs regA 3) regA 2) regA 1)
      (0 + cost .add + cost .jnz + cost .add + cost .jnz)) := by
  have h := c8_step_jnz cost
    (Function.update (Function.update (Function.update initRegs regA 3) regA 2) regA 1)
    (0 + cost .add + cost .jnz + cost .add)
  rw [Function.update_same] at h
  rw [show (if (1 : Nat) ≠ 0 then (0 : Nat) else 13) = 0 by norm_num] at h
  exact h

theorem c8_fact5 : step cost
    (c8at 0 (Function.update (Function.update (Function.update initRegs regA 3) regA 2) regA 1)
      (0 + cost .add + cost .jnz + cost .add + cost .jnz)) = .next
    (c8at 5 (Function.update (Function.update (Function.update (Function.update initRegs regA 3)
        regA 2) regA 1) regA 0)
      (0 + cost .add + cost .jnz + cost .add + cost .jnz + cost .add)) := by
  have h := c8_step_add cost
    (Function.update (Function.update (Function.update initRegs regA 3) regA 2) regA 1)
    (0 + cost .add + cost .jnz + cost .add + cost .jnz)
  rw [Function.update_same] at h
  rw [show ((1 + (2 ^ 64 - 1)) % 2 ^ 64 : Nat) = 0 by decide] at h
  exact h

theorem c8_fact6 : step cost
    (c8at 5 (Function.update (Function.update (Function.update (Function.update initRegs regA 3)
        regA 2) regA 1) regA 0)
      (0 + cost .add + cost .jnz + cost .add + cost .jnz + cost .add)) = .next
    (c8at 13 (Function.update (Function.update (Function.update (Function.update initRegs regA 3)
        regA 2) regA 1) regA 0)
      (0 + cost .add + cost .jnz + cost .add + cost .jnz + cost .add + cost .jnz)) := by
  have h := c8_step_jnz cost
    (Function.update (Function.update (Function.update (Function.update initRegs regA 3)
      regA 2) regA 1) regA 0)
    (0 + cost .add + cost .jnz + cost .add + cost .jnz + cost .add)
  rw [Function.update_same] at h
  rw [show (if (0 : Nat) ≠ 0 then (0 : Nat) else 13) = 13 by norm_num] at h
  exact h

theorem c8_run : run cost 10 (c8at 0 (Function.update initRegs regA 3) 0) =
    .halted (.val 0)
    (c8at 17 (Function.update (Function.update (Function.update (Function.update initRegs regA 3)
        regA 2) regA 1) regA 0)
      (0 + cost .add + cost .jnz + cost .add + cost .jnz + cost .add + cost .jnz)) := by
  rw [show (10 : Nat) = 9 + 1 from rfl, run_succ_next cost 9 _ _ (c8_fact1 cost)]
  rw [show (9 : Nat) = 8 + 1 from rfl, run_succ_next cost 8 _ _ (c8_fact2 cost)]
  rw [show (8 : Nat) = 7 + 1 from rfl, run_succ_next cost 7 _ _ (c8_fact3 cost)]
  rw [show (7 : Nat) = 6 + 1 from rfl, run_succ_next cost 6 _ _ (c8_fact4 cost)]
  rw [show (6 : Nat) = 5 + 1 from rfl, run_succ_next cost 5 _ _ (c8_fact5 cost)]
  rw [show (5 : Nat) = 4 + 1 from rfl, run_succ_next cost 4 _ _ (c8_fact6 cost)]
  rw [show (4 : Nat) = 3 + 1 from rfl,
    run_succ_halt cost 3 _ _ _ (c8_step_halt cost _ _)]

end C8Trace

/-- C8, amended: the cycle count at termination is the sum of the cycle
costs of the executed instructions excluding the final `halt`, whose cost
is never added because `run` returns before `execute_instr` runs:
scenario 2 started with `a = 3` halts with cycle count
`3*C(add) + 3*C(jnz)`, for every cost table. -/
theorem cycle_count_scenario (cost : Mnemonic → Nat) :
    runCycles cost 10 c8s = some (3 * cost .add + 3 * cost .jnz) := by
  have hs : c8s = c8at 0 (Function.update initRegs regA 3) 0 := rfl
  show haltCycles (run cost 10 c8s) = _
  rw [hs, c8_run]
  dsimp only [haltCycles, c8at]
  congr 1
  ring

/-! ## C9 — `ret` cannot name `z`: the bitmap covers only `a`‥`y` -/

theorem any_val_eq_filter_ne25 (rs : List (Fin 26)) (i : Nat) (hi : i < 25) :
    (rs.filter fun r => decide (r.val ≠ 25)).any (fun r => decide (r.val = i)) =
      rs.any fun r => decide (r.val = i) := by
  rw [List.any_filter]
  induction rs with
  | nil => rfl
  | cons q t ih =>
    simp only [List.any_cons, ih]
    by_cases hq : q.val = i
    · have hq25 : ¬ q.val = 25 := by omega
      have hi25 : ¬ i = 25 := by omega
      simp [hq, hq25, hi25]
    · simp [hq]

theorem retBitmap_filter_ne25 (rs : List (Fin 26)) :
    retBitmap (rs.filter fun r => decide (r.val ≠ 25)) = retBitmap rs := by
  unfold retBitmap
  refine Finset.sum_congr rfl fun i hi => ?_
  rw [any_val_eq_filter_ne25 rs i (Finset.mem_range.mp hi)]

theorem z_not_in_decodeRetArgs (flags : Nat) : regZ ∉ decodeRetArgs flags := by
  intro hmem
  simp only [decodeRetArgs, List.mem_filter, decide_eq_true_eq] at hmem
  have h25 : regZ.val = 25 := rfl
  omega

/-- Inversion of the decoder on `ret`: the operand list is always the
25-bit bitmap decode, and the saved pointer is `isp + 4`. -/
theorem decodeAt_ret_inv (s : State) (rs : List (Fin 26)) (p : Nat)
    (h : decodeAt s = some (.ret rs p)) :
    ∃ w, readLE s.instructions s.isp 4 = some w ∧
      rs = decodeRetArgs (w / 128) ∧ p = s.isp + 4 := by
  unfold decodeAt at h
  cases hw : readLE s.instructions s.isp 4 with
  | none =>
    simp [hw] at h
  | some w =>
    simp only [hw] at h
    cases hname : instrName (w % 128) with
    | none =>
      simp [hname] at h
    | some m =>
      simp only [hname] at h
      by_cases hm : m = .ret
      · subst hm
        rw [if_pos rfl] at h
        simp only [Option.some.injEq, DecInstr.ret.injEq] at h
        exact ⟨w, rfl, h.1.symm, h.2.symm⟩
      · rw [if_neg hm] at h
        cases hd : decodeArgs s.instructions (w / 128) (s.isp + 4) with
        | none =>
          simp [hd] at h
        | some pr =>
          obtain ⟨l, p2⟩ := pr
          simp [hd] at h

/-- The `ret` branch of `step`, given the decoded instruction and a
non-empty callstack. -/
theorem step_ret (cost : Mnemonic → Nat) (s : State) (rs : List (Fin 26)) (p : Nat)
    (h : decodeAt s = some (.ret rs p)) (oisp : Nat) (oregs : Fin 26 → Nat)
    (rest : List (Nat × (Fin 26 → Nat))) (hcs : s.callstack = (oisp, oregs) :: rest) :
    step cost s = .next
      { s with
        isp := oisp
        callstack := rest
        regs := fun r => if r ∈ rs then s.regs r else oregs r } := by
  simp only [step, h, hcs]

/-- C9: register `z` cannot flow through a `ret`: (1) the encoder's
bitmap ranges over `a`‥`y` only, so a `ret` listing `z` encodes to
exactly the bytes of the same `ret` without `z`; (2) no decoded `ret`
operand list contains `z`; (3) hence every executed `ret` restores `z`
from the callstack snapshot taken at the matching `call`. -/
theorem ret_z_invisible :
    (∀ rs : List (Fin 26),
      encodeRet rs = encodeRet (rs.filter fun r => decide (r.val ≠ 25))) ∧
    (∀ flags : Nat, regZ ∉ decodeRetArgs flags) ∧
    (∀ (cost : Mnemonic → Nat) (s : State) (rs : List (Fin 26)) (p : Nat),
      decodeAt s = some (.ret rs p) →
      ∀ (oisp : Nat) (oregs : Fin 26 → Nat) (rest : List (Nat × (Fin 26 → Nat))),
        s.callstack = (oisp, oregs) :: rest →
        ∃ s2, step cost s = .next s2 ∧ s2.regs regZ = oregs regZ) := by
  refine ⟨?_, z_not_in_decodeRetArgs, ?_⟩
  · intro rs
    unfold encodeRet
    rw [retBitmap_filter_ne25]
  · intro cost s rs p h oisp oregs rest hcs
    obtain ⟨w, _, hrs, _⟩ := decodeAt_ret_inv s rs p h
    refine ⟨_, step_ret cost s rs p h oisp oregs rest hcs, ?_⟩
    have hz : regZ ∉ rs := by
      rw [hrs]
      exact z_not_in_decodeRetArgs _
    simp [hz]

/-- The concrete state for the `ret z` witness: the stream is the
4-byte encoding of `ret z` and the callstack holds one snapshot. -/
def c9s : State :=
  { mkState (encodeRet [regZ]) with callstack := [(7, fun _ => 5)] }

/-- Witness for `ret_z_invisible`: `ret z` encodes like a bare `ret`,
decodes to an empty register list, and executing it restores `z` from the
snapshot. -/
theorem ret_z_invisible_witness :
    (encodeRet [regZ] = encodeRet ([regZ].filter fun r => decide (r.val ≠ 25))) ∧
    (regZ ∉ decodeRetArgs 1) ∧
    (decodeAt c9s = some (.ret [] 4) ∧
      ∃ s2, step (fun _ => 1) c9s = .next s2 ∧
        s2.regs regZ = (fun _ => (5 : Nat)) regZ) :=
  ⟨ret_z_invisible.1 [regZ], ret_z_invisible.2.1 1,
    by decide,
    ret_z_invisible.2.2 (fun _ => 1) c9s [] 4 (by decide) 7 (fun _ => 5) [] rfl⟩

/-! ## C1 — call/ret frame discipline -/

theorem setReg_callstack (s : State) (d : Fin 26) (v : Nat) :
    (setReg s d v).callstack = s.callstack := rfl

theorem load_callstack (s : State) (a w : Nat) (pr : Nat × State)
    (h : load s a w = some pr) : pr.2.callstack = s.callstack := by
  unfold load at h
  dsimp only at h
  repeat' split at h
  all_goals first
    | exact Option.noConfusion h
    | (injection h with h2
       subst h2
       rfl)

theorem store_callstack (s : State) (a b w : Nat) (s2 : State)
    (h : store s a b w = some s2) : s2.callstack = s.callstack := by
  unfold store at h
  dsimp only at h
  repeat' split at h
  all_goals first
    | exact Option.noConfusion h
    | (injection h with h2
       subst h2
       rfl)

theorem executeInstr_next (cost : Mnemonic → Nat) (m : Mnemonic) (args0 : List Arg)
    (s s2 : State) (h : executeInstr cost m args0 s = .next s2) :
    ∃ s3, instrAction m (resolveArgs (sigOut m) s.regs args0) s = some s3 ∧
      s2 = { s3 with cycle_count := s3.cycle_count + cost m } := by
  unfold executeInstr at h
  cases hres : instrAction m (resolveArgs (sigOut m) s.regs args0) s with
  | none =>
    simp only [hres] at h
    exact StepRes.noConfusion h
  | some s3 =>
    simp only [hres] at h
    injection h with h2
    exact ⟨s3, rfl, h2.symm⟩

theorem instrAction_callstack (m : Mnemonic) (args : List Arg) (s s3 : State)
    (h : instrAction m args s = some s3) :
    s3.callstack = s.callstack ∨ s3.callstack = (s.isp, s.regs) :: s.callstack := by
  cases m <;> simp only [instrAction] at h <;> repeat' split at h
  all_goals first
    | exact Option.noConfusion h
    | (left
       exact store_callstack _ _ _ _ _ h)
    | (injection h with h2
       subst h2
       first
         | (left
            rfl)
         | (right
            rfl)
         | (left
            simp only [setReg_callstack]
            exact load_callstack _ _ _ _ (by assumption)))

/-- A successful step leaves the callstack unchanged, pushes one frame,
or pops one frame: `ret` pops, `call` pushes, everything else dispatches
through `instrAction`, which never touches the callstack. -/
theorem step_next_callstack (cost : Mnemonic → Nat) (s s2 : State)
    (h : step cost s = .next s2) :
    s2.callstack = s.callstack ∨ (∃ f, s2.callstack = f :: s.callstack) ∨
      (∃ f, s.callstack = f :: s2.callstack) := by
  cases hd : decodeAt s with
  | none =>
    unfold step at h
    rw [hd] at h
    exact StepRes.noConfusion h
  | some di =>
    cases di with
    | ret rs p =>
      cases hcs : s.callstack with
      | nil =>
        unfold step at h
        simp only [hd, hcs] at h
        exact StepRes.noConfusion h
      | cons e rest =>
        obtain ⟨oisp, oregs⟩ := e
        rw [step_ret cost s rs p hd oisp oregs rest hcs] at h
        injection h with h2
        right
        right
        refine ⟨(oisp, oregs), ?_⟩
        have hrest : s2.callstack = rest := by
          rw [← h2]
        rw [hrest]
    | plain m l p =>
      by_cases hm : m = Mnemonic.halt
      · subst hm
        rw [step_halted cost l p s hd] at h
        exact StepRes.noConfusion h
      · rw [step_plain cost m l p s hd hm] at h
        obtain ⟨s3, hact, hs2⟩ := executeInstr_next cost m l _ s2 h
        have hcs2 := instrAction_callstack m _ _ _ hact
        subst hs2
        cases hcs2 with
        | inl he => exact Or.inl he
        | inr he => exact Or.inr (Or.inl ⟨_, he⟩)

/-- The bottom `n` entries of a list (`botn` of the callstack is the part
a well-nested excursion never touches). -/
def botn {α : Type} (n : Nat) (l : List α) : List α :=
  l.drop (l.length - n)

theorem botn_cons {α : Type} (n : Nat) (e : α) (l : List α) (h : n ≤ l.length) :
    botn n (e :: l) = botn n l := by
  unfold botn
  have hlen : (e :: l).length - n = (l.length - n) + 1 := by
    simp only [List.length_cons]
    omega
  rw [hlen, List.drop_succ_cons]

theorem botn_self {α : Type} (l : List α) : botn l.length l = l := by
  unfold botn
  simp

/-- Along a run in which the callstack never dips below `n` entries, the
bottom `n` entries never change. -/
theorem trace_botn_preserved (cost : Mnemonic → Nat) (σ : Nat → State) (n i : Nat) :
    ∀ d,
    (∀ k, i ≤ k → k < i + d → step cost (σ k) = .next (σ (k + 1))) →
    (∀ k, i ≤ k → k ≤ i + d → n ≤ (σ k).callstack.length) →
    botn n (σ (i + d)).callstack = botn n (σ i).callstack := by
  intro d
  induction d with
  | zero => intro _ _; rfl
  | succ d ih =>
    intro hsteps hlen
    have hprev : botn n (σ (i + d)).callstack = botn n (σ i).callstack :=
      ih (fun k hk1 hk2 => hsteps k hk1 (by omega))
        (fun k hk1 hk2 => hlen k hk1 (by omega))
    have hstep : step cost (σ (i + d)) = .next (σ (i + d + 1)) :=
      hsteps (i + d) (by omega) (by omega)
    have hL1 : n ≤ (σ (i + d)).callstack.length := hlen _ (by omega) (by omega)
    have hL2 : n ≤ (σ (i + d + 1)).callstack.length := hlen _ (by omega) (by omega)
    show botn n (σ (i + d + 1)).callstack = botn n (σ i).callstack
    rcases step_next_callstack cost _ _ hstep with he | ⟨f, he⟩ | ⟨f, he⟩
    · rw [he, hprev]
    · rw [he, botn_cons n f _ hL1, hprev]
    · rw [he, botn_cons n f _ hL2] at hprev
      exact hprev

/-- Executing a decoded `call` pushes the return pointer (the offset just
past the `call`) and a snapshot of the register file taken immediately
before the call. -/
theorem step_call_shape (cost : Mnemonic → Nat) (s s2 : State) (cargs : List Arg)
    (nisp : Nat) (hd : decodeAt s = some (.plain .call cargs nisp))
    (h : step cost s = .next s2) :
    s2.callstack = (nisp, s.regs) :: s.callstack := by
  rw [step_plain cost .call cargs nisp s hd (by intro hc; cases hc)] at h
  obtain ⟨s3, hact, hs2⟩ := executeInstr_next cost .call cargs _ s2 h
  subst hs2
  simp only [instrAction] at hact
  split at hact
  · exact Option.noConfusion hact
  · injection hact with h2
    rw [← h2]

/-- C1: frame discipline of a matched `call`/`ret` pair.  Along a trace
`σ` of successful steps from the `call` at time `i` to the `ret` at time
`j` (matched: the callstack is strictly deeper than at `i` throughout and
exactly one frame deeper at `j`), after the `ret` executes `isp` equals
the saved offset of the instruction following the `call`, every register
listed by the `ret` holds its value from immediately before the `ret`,
and every other register holds its value from immediately before the
`call`. -/
theorem call_ret_frame (cost : Mnemonic → Nat) (σ : Nat → State) (i j : Nat)
    (cargs : List Arg) (nisp : Nat) (R : List (Fin 26)) (p2 : Nat)
    (hij : i < j)
    (hsteps : ∀ k, i ≤ k → k ≤ j → step cost (σ k) = .next (σ (k + 1)))
    (hcall : decodeAt (σ i) = some (.plain .call cargs nisp))
    (hret : decodeAt (σ j) = some (.ret R p2))
    (hmatch : (σ j).callstack.length = (σ i).callstack.length + 1)
    (hmin : ∀ k, i < k → k ≤ j → (σ i).callstack.length < (σ k).callstack.length) :
    (σ (j + 1)).isp = nisp ∧
    (∀ r, r ∈ R → (σ (j + 1)).regs r = (σ j).regs r) ∧
    (∀ r, r ∉ R → (σ (j + 1)).regs r = (σ i).regs r) := by
  have hpush : (σ (i + 1)).callstack = (nisp, (σ i).regs) :: (σ i).callstack :=
    step_call_shape cost (σ i) (σ (i + 1)) cargs nisp hcall
      (hsteps i (le_refl i) (le_of_lt hij))
  have hbot : botn ((σ i).callstack.length + 1) (σ ((i + 1) + (j - (i + 1)))).callstack
      = botn ((σ i).callstack.length + 1) (σ (i + 1)).callstack := by
    apply trace_botn_preserved
    · intro k hk1 hk2
      exact hsteps k (by omega) (by omega)
    · intro k hk1 hk2
      have := hmin k (by omega) (by omega)
      omega
  have hidx : (i + 1) + (j - (i + 1)) = j := by omega
  rw [hidx] at hbot
  have hlen1 : (σ (i + 1)).callstack.length = (σ i).callstack.length + 1 := by
    rw [hpush, List.length_cons]
  have hcs : (σ j).callstack = (nisp, (σ i).regs) :: (σ i).callstack := by
    have h1 : botn ((σ i).callstack.length + 1) (σ j).callstack = (σ j).callstack := by
      rw [← hmatch]
      exact botn_self _
    have h2 : botn ((σ i).callstack.length + 1) (σ (i + 1)).callstack
        = (σ (i + 1)).callstack := by
      rw [← hlen1]
      exact botn_self _
    rw [← h1, hbot, h2, hpush]
  have hstepj := hsteps j (by omega) (le_refl j)
  rw [step_ret cost (σ j) R p2 hret nisp ((σ i).regs) ((σ i).callstack) hcs] at hstepj
  injection hstepj with h2
  refine ⟨?_, ?_, ?_⟩
  · rw [← h2]
  · intro r hr
    rw [← h2]
    show (if r ∈ R then (σ j).regs r else (σ i).regs r) = (σ j).regs r
    rw [if_pos hr]
  · intro r hr
    rw [← h2]
    show (if r ∈ R then (σ j).regs r else (σ i).regs r) = (σ i).regs r
    rw [if_neg hr]

/-- The C1 witness program: `call 9; halt 0; ret a` — the call pushes
return offset 5, the `ret` at offset 9 returns there restoring all
registers but `a`. -/
def c1prog : List Nat := [161, 0, 0, 0, 9, 35, 0, 0, 0, 162, 0, 0, 0]

/-- The C1 witness trace: iterate `step` (cost 0) from the fresh machine
on `c1prog`. -/
def c1w : Nat → State
  | 0 => mkState c1prog
  | n + 1 =>
    match step (fun _ => 0) (c1w n) with
    | .next s2 => s2
    | _ => mkState c1prog

/-- Witness for `call_ret_frame` on `c1prog` with `i = 0`, `j = 1`: the
`call` decodes with return offset 5, the `ret` lists exactly `a`, and
after the return `isp = 5`, `a` keeps its pre-`ret` value and `b` its
pre-`call` value. -/
theorem call_ret_frame_witness :
    decodeAt (c1w 0) = some (.plain .call [.val 9, .val 0, .val 0, .val 0, .val 0] 5) ∧
    decodeAt (c1w 1) = some (.ret [regA] 13) ∧
    (c1w 2).isp = 5 ∧
    (c1w 2).regs regA = (c1w 1).regs regA ∧
    (c1w 2).regs regB = (c1w 0).regs regB := by
  have h := call_ret_frame (fun _ => 0) c1w 0 1
    [.val 9, .val 0, .val 0, .val 0, .val 0] 5 [regA] 13
    (by decide)
    (fun k _ hk2 =>
      match k, hk2 with
      | 0, _ => rfl
      | 1, _ => rfl
      | n + 2, h2 => absurd h2 (by omega))
    rfl rfl rfl
    (fun k hk1 hk2 =>
      match k, hk1, hk2 with
      | 0, h1, _ => absurd h1 (by decide)
      | 1, _, _ => by decide
      | n + 2, _, h2 => absurd h2 (by omega))
  exact ⟨rfl, rfl, h.1, h.2.1 regA (by decide), h.2.2 regB (by decide)⟩

/-! ## C2 — encode/decode round trip -/

theorem leVal_packLE (w : Nat) : ∀ n, n < 2 ^ (8 * w) → leVal (packLE n w) = n := by
  induction w with
  | zero =>
    intro n h
    have : n = 0 := by
      have h1 : 2 ^ (8 * 0) = 1 := by norm_num
      omega
    subst this
    rfl
  | succ k ih =>
    intro n h
    have hb : n / 256 < 2 ^ (8 * k) := by
      have h1 : 2 ^ (8 * (k + 1)) = 2 ^ (8 * k) * 256 := by
        rw [Nat.mul_succ, pow_add]
        norm_num
      rw [h1] at h
      omega
    show leVal (n % 256 :: packLE (n / 256) k) = n
    rw [leVal, ih (n / 256) hb]
    omega

theorem readLE_of_drop (stream b rest2 : List Nat) (p : Nat) (hb : 0 < b.length)
    (h : stream.drop p = b ++ rest2) : readLE stream p b.length = some (leVal b) := by
  have hlen : stream.length - p = b.length + rest2.length := by
    have h2 := congrArg List.length h
    rw [List.length_drop, List.length_append] at h2
    exact h2
  have hslice : slice stream p b.length = b := by
    unfold slice
    rw [h, List.take_left]
  unfold readLE
  rw [if_pos (by omega), hslice]

theorem drop_past_imm (stream b rest2 : List Nat) (p : Nat)
    (hdrop : stream.drop p = b ++ rest2) :
    stream.drop (p + b.length) = rest2 := by
  rw [← List.drop_drop, hdrop, List.drop_left]

/-- Round trip of the 1-byte signed immediate class (descriptor 1,
`"b"`). -/
theorem twos_emod8 (v : Int) (h1 : -2 ^ 7 ≤ v) (h2 : v < 2 ^ 7) :
    twos ((v.emod (2 ^ 8)).toNat) 8 = v := by
  have h0 : (0:Int) ≤ v.emod (2 ^ 8) := Int.emod_nonneg v (by norm_num)
  unfold twos
  rw [Int.toNat_of_nonneg h0]
  rw [Int.fdiv_eq_ediv _ (by norm_num), Int.fmod_eq_emod _ (by norm_num)]
  have hpow : (2:Int) ^ (8:Nat) = 256 := by norm_num
  have hp7 : (2:Int) ^ (8 - 1 : Nat) = 128 := by norm_num
  rw [hpow, hp7]
  have he : v.emod 256 = v % 256 := rfl
  rw [he]
  have hp7b : (2:Int) ^ (7:Nat) = 128 := by norm_num
  rw [hp7b] at h1 h2
  split <;> omega

/-- Round trip of the 2-byte signed immediate class (descriptor 2,
`"h"`). -/
theorem twos_emod16 (v : Int) (h1 : -2 ^ 15 ≤ v) (h2 : v < 2 ^ 15) :
    twos ((v.emod (2 ^ 16)).toNat) 16 = v := by
  have h0 : (0:Int) ≤ v.emod (2 ^ 16) := Int.emod_nonneg v (by norm_num)
  unfold twos
  rw [Int.toNat_of_nonneg h0]
  rw [Int.fdiv_eq_ediv _ (by norm_num), Int.fmod_eq_emod _ (by norm_num)]
  have hpow : (2:Int) ^ (16:Nat) = 65536 := by norm_num
  have hp15 : (2:Int) ^ (16 - 1 : Nat) = 32768 := by norm_num
  rw [hpow, hp15]
  have he : v.emod 65536 = v % 65536 := rfl
  rw [he]
  have hp15b : (2:Int) ^ (15:Nat) = 32768 := by norm_num
  rw [hp15b] at h1 h2
  split <;> omega

/-- Round trip of the 4-byte signed immediate class (descriptor 3,
`"i"`). -/
theorem twos_emod32 (v : Int) (h1 : -2 ^ 31 ≤ v) (h2 : v < 2 ^ 31) :
    twos ((v.emod (2 ^ 32)).toNat) 32 = v := by
  have h0 : (0:Int) ≤ v.emod (2 ^ 32) := Int.emod_nonneg v (by norm_num)
  unfold twos
  rw [Int.toNat_of_nonneg h0]
  rw [Int.fdiv_eq_ediv _ (by norm_num), Int.fmod_eq_emod _ (by norm_num)]
  have hpow : (2:Int) ^ (32:Nat) = 4294967296 := by norm_num
  have hp31 : (2:Int) ^ (32 - 1 : Nat) = 2147483648 := by norm_num
  rw [hpow, hp31]
  have he : v.emod 4294967296 = v % 4294967296 := rfl
  rw [he]
  have hp31b : (2:Int) ^ (31:Nat) = 2147483648 := by norm_num
  rw [hp31b] at h1 h2
  split <;> omega

/-- Round trip of the 8-byte unsigned immediate class (descriptor 4,
`"Q"`): reading back through `u` recovers the 64-bit reduction of any
integer. -/
theorem u_toNat_emod64 (v : Int) : u ((v.emod (2 ^ 64)).toNat) = u v := by
  have h0 : (0:Int) ≤ v.emod (2 ^ 64) := Int.emod_nonneg v (by norm_num)
  unfold u
  rw [Int.toNat_of_nonneg h0]
  have hpow : (2:Int) ^ (64:Nat) = 18446744073709551616 := by norm_num
  have he : ∀ x : Int, x.emod (2 ^ 64) = x % 18446744073709551616 := by
    intro x
    rw [hpow]
    rfl
  simp only [he]
  omega

theorem readImm_code1 (stream rest2 : List Nat) (p : Nat) (v : Int)
    (h1 : -2 ^ 7 ≤ v) (h2 : v < 2 ^ 7)
    (hdrop : stream.drop p = packLE (v.emod (2 ^ 8)).toNat 1 ++ rest2) :
    readImm stream p 1 = some (u v, p + 1) := by
  have hn : (v.emod (2 ^ 8)).toNat < 2 ^ (8 * 1) := by
    have hp : (2:Int) ^ (8:Nat) = 256 := by norm_num
    have he : v.emod (2 ^ 8) = v % 256 := by rw [hp]; rfl
    rw [he]
    have hg : (2:Nat) ^ (8 * 1) = 256 := by norm_num
    rw [hg]
    omega
  have hr := readLE_of_drop stream (packLE (v.emod (2 ^ 8)).toNat 1) rest2 p
    (by rw [packLE_length]; omega) hdrop
  rw [packLE_length] at hr
  simp only [readImm]
  rw [hr]
  show some (u (twos ((leVal (packLE (v.emod (2 ^ 8)).toNat 1) : Nat) : Int) 8), p + 1)
    = some (u v, p + 1)
  rw [leVal_packLE 1 _ hn, twos_emod8 v h1 h2]

theorem readImm_code2 (stream rest2 : List Nat) (p : Nat) (v : Int)
    (h1 : -2 ^ 15 ≤ v) (h2 : v < 2 ^ 15)
    (hdrop : stream.drop p = packLE (v.emod (2 ^ 16)).toNat 2 ++ rest2) :
    readImm stream p 2 = some (u v, p + 2) := by
  have hn : (v.emod (2 ^ 16)).toNat < 2 ^ (8 * 2) := by
    have hp : (2:Int) ^ (16:Nat) = 65536 := by norm_num
    have he : v.emod (2 ^ 16) = v % 65536 := by rw [hp]; rfl
    rw [he]
    have hg : (2:Nat) ^ (8 * 2) = 65536 := by norm_num
    rw [hg]
    omega
  have hr := readLE_of_drop stream (packLE (v.emod (2 ^ 16)).toNat 2) rest2 p
    (by rw [packLE_length]; omega) hdrop
  rw [packLE_length] at hr
  simp only [readImm]
  rw [hr]
  show some (u (twos ((leVal (packLE (v.emod (2 ^ 16)).toNat 2) : Nat) : Int) 16), p + 2)
    = some (u v, p + 2)
  rw [leVal_packLE 2 _ hn, twos_emod16 v h1 h2]

theorem readImm_code3 (stream rest2 : List Nat) (p : Nat) (v : Int)
    (h1 : -2 ^ 31 ≤ v) (h2 : v < 2 ^ 31)
    (hdrop : stream.drop p = packLE (v.emod (2 ^ 32)).toNat 4 ++ rest2) :
    readImm stream p 3 = some (u v, p + 4) := by
  have hn : (v.emod (2 ^ 32)).toNat < 2 ^ (8 * 4) := by
    have hp : (2:Int) ^ (32:Nat) = 4294967296 := by norm_num
    have he : v.emod (2 ^ 32) = v % 4294967296 := by rw [hp]; rfl
    rw [he]
    have hg : (2:Nat) ^ (8 * 4) = 4294967296 := by norm_num
    rw [hg]
    omega
  have hr := readLE_of_drop stream (packLE (v.emod (2 ^ 32)).toNat 4) rest2 p
    (by rw [packLE_length]; omega) hdrop
  rw [packLE_length] at hr
  simp only [readImm]
  rw [hr]
  show some (u (twos ((leVal (packLE (v.emod (2 ^ 32)).toNat 4) : Nat) : Int) 32), p + 4)
    = some (u v, p + 4)
  rw [leVal_packLE 4 _ hn, twos_emod32 v h1 h2]

theorem readImm_code4 (stream rest2 : List Nat) (p : Nat) (v : Int)
    (hdrop : stream.drop p = packLE (v.emod (2 ^ 64)).toNat 8 ++ rest2) :
    readImm stream p 4 = some (u v, p + 8) := by
  have hn : (v.emod (2 ^ 64)).toNat < 2 ^ (8 * 8) := by
    have hp : (2:Int) ^ (64:Nat) = 18446744073709551616 := by norm_num
    have he : v.emod (2 ^ 64) = v % 18446744073709551616 := by rw [hp]; rfl
    rw [he]
    have hg : (2:Nat) ^ (8 * 8) = 18446744073709551616 := by norm_num
    rw [hg]
    omega
  have hr := readLE_of_drop stream (packLE (v.emod (2 ^ 64)).toNat 8) rest2 p
    (by rw [packLE_length]; omega) hdrop
  rw [packLE_length] at hr
  simp only [readImm]
  rw [hr]
  show some (u ((leVal (packLE (v.emod (2 ^ 64)).toNat 8) : Nat) : Int), p + 8)
    = some (u v, p + 8)
  rw [leVal_packLE 8 _ hn, u_toNat_emod64]

/-- One iteration of the operand-descriptor loop on an encoded operand:
with a positive remaining flag field, the decoder consumes exactly the
operand's descriptor code and immediate bytes and produces `denote a`. -/
theorem decodeArgsF_step (stream tail2 : List Nat) (p F fl2 : Nat) (a : EOperand)
    (f : Nat) (b : List Nat)
    (hfa : flagImm a = some (f, b))
    (hdrop : stream.drop p = b ++ tail2)
    (hpos : 0 < f + 32 * fl2) :
    decodeArgsF stream (F + 1) (f + 32 * fl2) p =
      (decodeArgsF stream F fl2 (p + b.length)).map
        fun r2 => (denote a :: r2.1, r2.2) := by
  obtain ⟨G, hG⟩ : ∃ G, f + 32 * fl2 = G + 1 := ⟨f + 32 * fl2 - 1, by omega⟩
  cases a with
  | reg r =>
    simp only [flagImm] at hfa
    injection hfa with h3
    simp only [Prod.mk.injEq] at h3
    obtain ⟨hf, hb⟩ := h3
    subst hf
    subst hb
    rw [hG]
    simp only [decodeArgsF]
    simp only [← hG]
    have hr := r.isLt
    have hmod : (5 + ↑r + 32 * fl2) % 32 = 5 + ↑r := by omega
    have hdiv2 : (5 + ↑r + 32 * fl2) / 32 = fl2 := by omega
    simp only [hmod, hdiv2]
    rw [if_neg (by omega), dif_neg (by omega), dif_pos (by omega)]
    have hfin : 5 + (r : Nat) - 5 = (r : Nat) := by omega
    simp only [hfin, Fin.eta, denote, List.length_nil, Nat.add_zero]
  | lbl o =>
    simp only [flagImm] at hfa
    split at hfa
    · rename_i hrange
      injection hfa with h3
      simp only [Prod.mk.injEq] at h3
      obtain ⟨hf, hb⟩ := h3
      subst hf
      subst hb
      rw [hG]
      simp only [decodeArgsF]
      simp only [← hG]
      have hmod : (3 + 32 * fl2) % 32 = 3 := by omega
      have hdiv2 : (3 + 32 * fl2) / 32 = fl2 := by omega
      simp only [hmod, hdiv2]
      rw [if_neg (by omega), dif_pos (by omega)]
      simp only [readImm_code3 stream tail2 p o hrange.1 hrange.2 hdrop]
      simp only [denote, packLE_length]
    · exact Option.noConfusion hfa
  | int v =>
    simp only [flagImm] at hfa
    split at hfa
    · rename_i hv0
      subst hv0
      injection hfa with h3
      simp only [Prod.mk.injEq] at h3
      obtain ⟨hf, hb⟩ := h3
      subst hf
      subst hb
      rw [hG]
      simp only [decodeArgsF]
      simp only [← hG]
      have hmod : (0 + 32 * fl2) % 32 = 0 := by omega
      have hdiv2 : (0 + 32 * fl2) / 32 = fl2 := by omega
      simp only [hmod, hdiv2, if_true]
      simp only [denote, List.length_nil, Nat.add_zero,
        show u 0 = 0 from by decide]
    · split at hfa
      · rename_i hrange
        injection hfa with h3
        simp only [Prod.mk.injEq] at h3
        obtain ⟨hf, hb⟩ := h3
        subst hf
        subst hb
        rw [hG]
        simp only [decodeArgsF]
        simp only [← hG]
        have hmod : (1 + 32 * fl2) % 32 = 1 := by omega
        have hdiv2 : (1 + 32 * fl2) / 32 = fl2 := by omega
        simp only [hmod, hdiv2]
        rw [if_neg (by omega), dif_pos (by omega)]
        simp only [readImm_code1 stream tail2 p v hrange.1 hrange.2 hdrop]
        simp only [denote, packLE_length]
      · split at hfa
        · rename_i hrange
          injection hfa with h3
          simp only [Prod.mk.injEq] at h3
          obtain ⟨hf, hb⟩ := h3
          subst hf
          subst hb
          rw [hG]
          simp only [decodeArgsF]
          simp only [← hG]
          have hmod : (2 + 32 * fl2) % 32 = 2 := by omega
          have hdiv2 : (2 + 32 * fl2) / 32 = fl2 := by omega
          simp only [hmod, hdiv2]
          rw [if_neg (by omega), dif_pos (by omega)]
          simp only [readImm_code2 stream tail2 p v hrange.1 hrange.2 hdrop]
          simp only [denote, packLE_length]
        · split at hfa
          · rename_i hrange
            injection hfa with h3
            simp only [Prod.mk.injEq] at h3
            obtain ⟨hf, hb⟩ := h3
            subst hf
            subst hb
            rw [hG]
            simp only [decodeArgsF]
            simp only [← hG]
            have hmod : (3 + 32 * fl2) % 32 = 3 := by omega
            have hdiv2 : (3 + 32 * fl2) / 32 = fl2 := by omega
            simp only [hmod, hdiv2]
            rw [if_neg (by omega), dif_pos (by omega)]
            simp only [readImm_code3 stream tail2 p v hrange.1 hrange.2 hdrop]
            simp only [denote, packLE_length]
          · split at hfa
            · injection hfa with h3
              simp only [Prod.mk.injEq] at h3
              obtain ⟨hf, hb⟩ := h3
              subst hf
              subst hb
              rw [hG]
              simp only [decodeArgsF]
              simp only [← hG]
              have hmod : (4 + 32 * fl2) % 32 = 4 := by omega
              have hdiv2 : (4 + 32 * fl2) / 32 = fl2 := by omega
              simp only [hmod, hdiv2]
              rw [if_neg (by omega), dif_pos (by omega)]
              simp only [readImm_code4 stream tail2 p v hdrop]
              simp only [denote, packLE_length]
            · exact Option.noConfusion hfa

/-- A flag field that packs to zero encodes only literal-zero operands
with no immediate bytes — the encodings the decoder cannot tell from the
end of the operand list. -/
theorem encArgs_flags_zero : ∀ (args : List EOperand) (fl im : List Nat),
    encArgs args = some (fl, im) → packFlagsNum fl = 0 →
    im = [] ∧ args.map denote = List.replicate args.length (Arg.val 0) := by
  intro args
  induction args with
  | nil =>
    intro fl im h _
    injection h with h2
    simp only [Prod.mk.injEq] at h2
    obtain ⟨hf, hi⟩ := h2
    subst hi
    exact ⟨rfl, rfl⟩
  | cons a rest ih =>
    intro fl im h hz
    simp only [encArgs] at h
    cases hfa : flagImm a with
    | none =>
      rw [hfa] at h
      exact Option.noConfusion h
    | some fb =>
      obtain ⟨f, b⟩ := fb
      rw [hfa] at h
      cases her : encArgs rest with
      | none =>
        rw [her] at h
        exact Option.noConfusion h
      | some r2 =>
        obtain ⟨fl2, im2⟩ := r2
        rw [her] at h
        injection h with h2
        simp only [Prod.mk.injEq] at h2
        obtain ⟨hf, hi⟩ := h2
        subst hf
        subst hi
        have hz2 : f + 32 * packFlagsNum fl2 = 0 := hz
        have hf0 : f = 0 := by omega
        have hfl0 : packFlagsNum fl2 = 0 := by omega
        obtain ⟨him2, hmap⟩ := ih fl2 im2 her hfl0
        subst hf0
        have hzop : a = EOperand.int 0 ∧ b = [] := by
          cases a with
          | reg r =>
            simp only [flagImm] at hfa
            injection hfa with h3
            simp only [Prod.mk.injEq] at h3
            omega
          | lbl o =>
            simp only [flagImm] at hfa
            split at hfa
            · injection hfa with h3
              simp only [Prod.mk.injEq] at h3
              omega
            · exact Option.noConfusion hfa
          | int v =>
            simp only [flagImm] at hfa
            split at hfa
            · rename_i hv0
              subst hv0
              injection hfa with h3
              simp only [Prod.mk.injEq] at h3
              exact ⟨rfl, h3.2.symm⟩
            · split at hfa
              · injection hfa with h3
                simp only [Prod.mk.injEq] at h3
                omega
              · split at hfa
                · injection hfa with h3
                  simp only [Prod.mk.injEq] at h3
                  omega
                · split at hfa
                  · injection hfa with h3
                    simp only [Prod.mk.injEq] at h3
                    omega
                  · split at hfa
                    · injection hfa with h3
                      simp only [Prod.mk.injEq] at h3
                      omega
                    · exact Option.noConfusion hfa
        obtain ⟨ha, hb⟩ := hzop
        subst ha
        subst hb
        refine ⟨by rw [him2]; rfl, ?_⟩
        rw [List.map_cons, hmap]
        simp only [List.length_cons, List.replicate_succ, denote,
          show u 0 = 0 from by decide]

theorem getD_replicate_val0 (k : Nat) : ∀ i : Nat,
    (List.replicate k (Arg.val 0)).getD i (Arg.val 0) = Arg.val 0 := by
  induction k with
  | zero => intro i; cases i <;> rfl
  | succ n ih =>
    intro i
    cases i with
    | zero => rfl
    | succ j => exact ih j

theorem getD_append_replicate (l : List Arg) (k : Nat) : ∀ i : Nat,
    (l ++ List.replicate k (Arg.val 0)).getD i (Arg.val 0) = l.getD i (Arg.val 0) := by
  induction l with
  | nil =>
    intro i
    rw [List.nil_append, getD_replicate_val0]
    cases i <;> rfl
  | cons a t ih =>
    intro i
    cases i with
    | zero => rfl
    | succ j => exact ih j

/-- The decoder applied to an encoded operand list: it recovers the
denoted operands up to trailing literal zeros, and leaves the instruction
pointer exactly past the immediate tail. -/
theorem decodeArgsF_encArgs (stream : List Nat) : ∀ (args : List EOperand)
    (fl im tail2 : List Nat) (p fuel : Nat),
    encArgs args = some (fl, im) →
    stream.drop p = im ++ tail2 →
    packFlagsNum fl ≤ fuel →
    ∃ l k, decodeArgsF stream fuel (packFlagsNum fl) p = some (l, p + im.length) ∧
      l ++ List.replicate k (Arg.val 0) = args.map denote := by
  intro args
  induction args with
  | nil =>
    intro fl im tail2 p fuel h hdrop hfuel
    injection h with h2
    simp only [Prod.mk.injEq] at h2
    obtain ⟨hf, hi⟩ := h2
    subst hf
    subst hi
    refine ⟨[], 0, ?_, rfl⟩
    simp [packFlagsNum, decodeArgsF]
  | cons a rest ih =>
    intro fl im tail2 p fuel h hdrop hfuel
    simp only [encArgs] at h
    cases hfa : flagImm a with
    | none =>
      rw [hfa] at h
      exact Option.noConfusion h
    | some fb =>
      obtain ⟨f, b⟩ := fb
      rw [hfa] at h
      cases her : encArgs rest with
      | none =>
        rw [her] at h
        exact Option.noConfusion h
      | some r2 =>
        obtain ⟨fl2, im2⟩ := r2
        rw [her] at h
        injection h with h2
        simp only [Prod.mk.injEq] at h2
        obtain ⟨hf, hi⟩ := h2
        subst hf
        subst hi
        have hPF : packFlagsNum (f :: fl2) = f + 32 * packFlagsNum fl2 := rfl
        by_cases hz : packFlagsNum (f :: fl2) = 0
        · obtain ⟨him, hmap⟩ := encArgs_flags_zero (a :: rest) (f :: fl2) (b ++ im2)
            (by simp only [encArgs, hfa, her]) hz
          rw [hz, him]
          refine ⟨[], (a :: rest).length, ?_, ?_⟩
          · simp [decodeArgsF]
          · rw [hmap]
            simp
        · obtain ⟨F, hF⟩ : ∃ F, fuel = F + 1 := ⟨fuel - 1, by omega⟩
          have hdropb : stream.drop p = b ++ (im2 ++ tail2) := by
            rw [hdrop, List.append_assoc]
          have hstep := decodeArgsF_step stream (im2 ++ tail2) p F (packFlagsNum fl2)
            a f b hfa hdropb (by omega)
          have hdrop2 : stream.drop (p + b.length) = im2 ++ tail2 :=
            drop_past_imm stream b (im2 ++ tail2) p hdropb
          obtain ⟨l2, k2, hdec, hpad⟩ := ih fl2 im2 tail2 (p + b.length) F her hdrop2
            (by omega)
          refine ⟨denote a :: l2, k2, ?_, ?_⟩
          · rw [hF, hPF, hstep, hdec, Option.map_some']
            have hlen2 : p + b.length + im2.length = p + (b ++ im2).length := by
              rw [List.length_append]
              omega
            rw [hlen2]
          · rw [List.cons_append, hpad, List.map_cons]

theorem instrId_lt_128 (m : Mnemonic) : instrId m < 128 := by
  cases m <;> decide

theorem instrName_instrId (m : Mnemonic) : instrName (instrId m) = some m := by
  cases m <;> rfl

/-- C2 (amended): for every real instruction other than `ret` whose
operand list the assembler accepts, decoding the encoded bytes on a fresh
VM yields the same mnemonic, advances the instruction pointer over the
whole encoding, and recovers the operand values — registers unchanged and
labels/integers as their 64-bit reductions — up to the literal-zero
padding both sides use.  (`ret` is excluded: its bitmap encoding drops
register `z`, see the counterexample.) -/
theorem encode_decode_roundtrip (m : Mnemonic) (args : List EOperand) (bs : List Nat)
    (hm : m ≠ Mnemonic.ret) (h : encode m args = some bs) :
    ∃ l, decodeAt (mkState bs) = some (.plain m l bs.length) ∧
      ∀ i, l.getD i (Arg.val 0) = (args.map denote).getD i (Arg.val 0) := by
  simp only [encode] at h
  cases he : encArgs args with
  | none =>
    simp only [he] at h
    exact Option.noConfusion h
  | some r2 =>
    obtain ⟨fl, im⟩ := r2
    simp only [he] at h
    split at h
    · rename_i hw
      injection h with hbs
      subst hbs
      obtain ⟨l2, k2, hdec, hpad⟩ := decodeArgsF_encArgs
        (packLE (instrId m + packFlagsNum fl * 128) 4 ++ im) args fl im [] 4
        (packFlagsNum fl) he
        (by
          rw [List.append_nil]
          conv_lhs => rw [show (4:Nat) = (packLE (instrId m + packFlagsNum fl * 128) 4).length
            from (packLE_length _ _).symm]
          exact List.drop_left _ _)
        (le_refl _)
      have hid := instrId_lt_128 m
      have hrd : readLE (packLE (instrId m + packFlagsNum fl * 128) 4 ++ im) 0 4 =
          some (instrId m + packFlagsNum fl * 128) := by
        have hr := readLE_of_drop (packLE (instrId m + packFlagsNum fl * 128) 4 ++ im)
          (packLE (instrId m + packFlagsNum fl * 128) 4) im 0
          (by rw [packLE_length]; omega) (by rw [List.drop_zero])
        rw [packLE_length] at hr
        rw [hr, leVal_packLE 4 _ (by
          have hg : (2:Nat) ^ (8 * 4) = 2 ^ 32 := by norm_num
          rw [hg]
          exact hw)]
      have hmod : (instrId m + packFlagsNum fl * 128) % 128 = instrId m := by omega
      have hdivw : (instrId m + packFlagsNum fl * 128) / 128 = packFlagsNum fl := by omega
      have hsi : (mkState (packLE (instrId m + packFlagsNum fl * 128) 4 ++ im)).instructions
          = packLE (instrId m + packFlagsNum fl * 128) 4 ++ im := rfl
      have hsp : (mkState (packLE (instrId m + packFlagsNum fl * 128) 4 ++ im)).isp = 0 := rfl
      have hdecode : decodeAt (mkState (packLE (instrId m + packFlagsNum fl * 128) 4 ++ im)) =
          some (.plain m (l2 ++ List.replicate (5 - l2.length) (Arg.val 0))
            (4 + im.length)) := by
        unfold decodeAt
        rw [hsi, hsp, hrd]
        simp only [hmod, hdivw, instrName_instrId]
        rw [if_neg hm]
        simp only [decodeArgs, Nat.zero_add]
        rw [hdec]
      refine ⟨l2 ++ List.replicate (5 - l2.length) (Arg.val 0), ?_, ?_⟩
      · rw [hdecode]
        have hlen : (packLE (instrId m + packFlagsNum fl * 128) 4 ++ im).length
            = 4 + im.length := by
          rw [List.length_append, packLE_length]
        rw [hlen]
      · intro i
        rw [getD_append_replicate, ← hpad, getD_append_replicate]
    · exact Option.noConfusion h

/-- C2 counterexample: `ret z` is a real instruction whose operand is the
legal register `z`, yet its encoding decodes to a `ret` with an empty
register list — the 25-bit bitmap of `Instr.encode` ranges over letters
`a`‥`y` only, so the `z` operand is silently dropped and the round trip
changes the instruction. -/
theorem ret_z_breaks_roundtrip :
    decodeAt (mkState (encodeRet [regZ])) = some (.ret [] 4) ∧
      DecInstr.ret ([] : List (Fin 26)) 4 ≠ DecInstr.ret [regZ] 4 := by
  constructor
  · decide
  · decide

/-- Witness for `encode_decode_roundtrip`: `add a, a, -1` encodes to
`[135, 82, 2, 0, 255]` and decodes back to `add` with operands
`a, a, 2^64 - 1` (the 64-bit reduction of `-1`), padded with literal
zeros. -/
theorem encode_decode_roundtrip_witness :
    (Mnemonic.add ≠ Mnemonic.ret) ∧
    encode .add [.reg regA, .reg regA, .int (-1)] = some [135, 82, 2, 0, 255] ∧
    ∃ l, decodeAt (mkState [135, 82, 2, 0, 255]) =
        some (.plain .add l [135, 82, 2, 0, 255].length) ∧
      ∀ i, l.getD i (Arg.val 0) =
        ([EOperand.reg regA, EOperand.reg regA, EOperand.int (-1)].map denote).getD i
          (Arg.val 0) := by
  refine ⟨by decide, by decide, ?_⟩
  exact encode_decode_roundtrip .add [.reg regA, .reg regA, .int (-1)]
    [135, 82, 2, 0, 255] (by decide) (by decide)

end Golf
